import Mathlib

/-!
Verification of the Behavior Tree Starter Kit (aigamedev/btsk).

Each C++ source file defines one self-contained variant of the engine in its
own namespace; the Lean namespaces below mirror them:
* `bt1` — BehaviorTree.cpp: the polling design (Behavior::tick, Sequence, Selector)
* `bt2` — BehaviorTreeShared.cpp: the Node/Task split
* `bt3` — BehaviorTreeOptimized.cpp: the arena allocator and offset-addressed composites
* `bt4` — BehaviorTreeEvent.cpp: the event-driven scheduler

Machine integers are modelled as Nat/Int with explicit `% 65536` where the
uint16 cast matters; C++ assertion failures and undefined behaviour surface as
`Option.none`.
-/

namespace bt1

/-- Return values of and valid states for behaviors (enum Status). -/
inductive Status
  | invalid
  | success
  | failure
  | running
deriving DecidableEq

/-- The virtual interface of `class Behavior`: `update` is pure virtual,
`onInitialize`/`onTerminate` default to no-ops.  The mutable per-object
state is abstracted as `σ`; `update` returns the new state and the Status. -/
structure BehaviorImpl (σ : Type) where
  update : σ → σ × Status
  onInitialize : σ → σ := fun s => s
  onTerminate : Status → σ → σ := fun _ s => s

/-- `Behavior::tick` (BehaviorTree.cpp lines 46-60): if the stored status is
invalid call onInitialize; set the status to the result of update; if that
result is not running call onTerminate with it; return it. -/
def Behavior.tick {σ : Type} (impl : BehaviorImpl σ) (st : σ) (status : Status) :
    σ × Status :=
  let st1 := if status = Status.invalid then impl.onInitialize st else st
  let u := impl.update st1
  let st2 := if u.2 ≠ Status.running then impl.onTerminate u.2 u.1 else u.1
  (st2, u.2)

/-- Events recorded by the instrumented behavior: which virtual hooks a tick
invoked, in order. -/
inductive TickEvent
  | initEv
  | updateEv
  | termEv (s : Status)
deriving DecidableEq

/-- Wraps an implementation so that every hook call is appended to a trace,
leaving the underlying behavior unchanged. -/
def instrument {σ : Type} (impl : BehaviorImpl σ) :
    BehaviorImpl (σ × List TickEvent) where
  update := fun p =>
    let u := impl.update p.1
    ((u.1, p.2 ++ [TickEvent.updateEv]), u.2)
  onInitialize := fun p => (impl.onInitialize p.1, p.2 ++ [TickEvent.initEv])
  onTerminate := fun s p => (impl.onTerminate s p.1, p.2 ++ [TickEvent.termEv s])

/-- `struct MockBehavior`: counts hook invocations and returns a configurable
status from update.  `m_eStatus` is the inherited Behavior field. -/
structure MockBehavior where
  m_eStatus : Status := Status.invalid
  m_iInitializeCalled : Nat := 0
  m_iTerminateCalled : Nat := 0
  m_iUpdateCalled : Nat := 0
  m_eReturnStatus : Status := Status.running
  m_eTerminateStatus : Status := Status.invalid
deriving DecidableEq

/-- MockBehavior's overrides of the three virtual hooks. -/
def mockImpl : BehaviorImpl MockBehavior where
  update := fun m =>
    ({ m with m_iUpdateCalled := m.m_iUpdateCalled + 1 }, m.m_eReturnStatus)
  onInitialize := fun m =>
    { m with m_iInitializeCalled := m.m_iInitializeCalled + 1 }
  onTerminate := fun s m =>
    { m with m_iTerminateCalled := m.m_iTerminateCalled + 1, m_eTerminateStatus := s }

/-- `MockBehavior` ticked through the inherited `Behavior::tick`. -/
def MockBehavior.tick (m : MockBehavior) : MockBehavior × Status :=
  let r := Behavior.tick mockImpl m m.m_eStatus
  ({ r.1 with m_eStatus := r.2 }, r.2)

/-- The state change one tick applies to a mock child (used to describe the
children a composite's update loop has visited). -/
def tickOnce (m : MockBehavior) : MockBehavior := (MockBehavior.tick m).1

/-- The body of `Sequence::update` (BehaviorTree.cpp lines 150-169), acting on
the not-yet-visited suffix of the child vector: tick the current child; return
its status unless it is success; on success advance; succeed when the children
are exhausted.  Returns the updated suffix, the number of children the cursor
advanced past, and the resulting status.  (Running it on an empty suffix
corresponds to dereferencing the end iterator in the source — undefined
behaviour — and is unreachable under the theorems' hypotheses.) -/
def seqLoop : List MockBehavior → List MockBehavior × Nat × Status
  | [] => ([], 0, Status.success)
  | c :: rest =>
    let r := MockBehavior.tick c
    if r.2 = Status.success then
      let q := seqLoop rest
      (r.1 :: q.1, q.2.1 + 1, q.2.2)
    else (r.1 :: rest, 0, r.2)

/-- `class Sequence`: the inherited status, the child vector, and the
`m_CurrentChild` iterator (as an index). -/
structure SequenceState where
  m_Children : List MockBehavior
  m_CurrentChild : Nat := 0
  m_eStatus : Status := Status.invalid
deriving DecidableEq

/-- Sequence's overrides: `onInitialize` resets the cursor to the first child;
`update` runs the loop from the cursor. -/
def seqImpl : BehaviorImpl (List MockBehavior × Nat) where
  update := fun p =>
    let q := seqLoop (p.1.drop p.2)
    ((p.1.take p.2 ++ q.1, p.2 + q.2.1), q.2.2)
  onInitialize := fun p => (p.1, 0)

/-- A Sequence ticked through the inherited `Behavior::tick`. -/
def SequenceState.tick (sq : SequenceState) : SequenceState × Status :=
  let r := Behavior.tick seqImpl (sq.m_Children, sq.m_CurrentChild) sq.m_eStatus
  (⟨r.1.1, r.1.2, r.2⟩, r.2)

/-- The cursor position a tick of the Sequence starts its update from: 0 when
the status is invalid (onInitialize resets the iterator), the stored cursor
otherwise. -/
def SequenceState.cur0 (sq : SequenceState) : Nat :=
  if sq.m_eStatus = Status.invalid then 0 else sq.m_CurrentChild

/-- The suffix of the child vector a tick of the Sequence will walk. -/
def SequenceState.todo (sq : SequenceState) : List MockBehavior :=
  sq.m_Children.drop sq.cur0

/-- The body of `Selector::update` (BehaviorTree.cpp lines 259-278), the dual
of `seqLoop`: return the current child's status unless it is failure; advance
past failed children; fail when the children are exhausted. -/
def selLoop : List MockBehavior → List MockBehavior × Nat × Status
  | [] => ([], 0, Status.failure)
  | c :: rest =>
    let r := MockBehavior.tick c
    if r.2 = Status.failure then
      let q := selLoop rest
      (r.1 :: q.1, q.2.1 + 1, q.2.2)
    else (r.1 :: rest, 0, r.2)

/-- `class Selector`: status, children, and the `m_Current` iterator. -/
structure SelectorState where
  m_Children : List MockBehavior
  m_Current : Nat := 0
  m_eStatus : Status := Status.invalid
deriving DecidableEq

/-- Selector's overrides of the virtual hooks. -/
def selImpl : BehaviorImpl (List MockBehavior × Nat) where
  update := fun p =>
    let q := selLoop (p.1.drop p.2)
    ((p.1.take p.2 ++ q.1, p.2 + q.2.1), q.2.2)
  onInitialize := fun p => (p.1, 0)

/-- A Selector ticked through the inherited `Behavior::tick`. -/
def SelectorState.tick (sel : SelectorState) : SelectorState × Status :=
  let r := Behavior.tick selImpl (sel.m_Children, sel.m_Current) sel.m_eStatus
  (⟨r.1.1, r.1.2, r.2⟩, r.2)

/-- The cursor position a tick of the Selector starts its update from. -/
def SelectorState.cur0 (sel : SelectorState) : Nat :=
  if sel.m_eStatus = Status.invalid then 0 else sel.m_Current

/-- The suffix of the child vector a tick of the Selector will walk. -/
def SelectorState.todo (sel : SelectorState) : List MockBehavior :=
  sel.m_Children.drop sel.cur0

/-- Index of the first child (within a suffix) whose update will not return
success, if any. -/
def firstNotSucc : List MockBehavior → Option Nat
  | [] => none
  | c :: rest =>
    if c.m_eReturnStatus = Status.success then (firstNotSucc rest).map (· + 1)
    else some 0

/-- Index of the first child (within a suffix) whose update will not return
failure, if any. -/
def firstNotFail : List MockBehavior → Option Nat
  | [] => none
  | c :: rest =>
    if c.m_eReturnStatus = Status.failure then (firstNotFail rest).map (· + 1)
    else some 0

/-- Concrete two-child Sequence fixture (first child succeeds, second fails),
mirroring the SequenceTwoChildren tests. -/
def seqFix : SequenceState :=
  { m_Children := [{ m_eReturnStatus := Status.success },
                   { m_eReturnStatus := Status.failure }] }

/-- Concrete two-child Selector fixture (first child fails, second succeeds),
mirroring the SelectorTwoChildren tests. -/
def selFix : SelectorState :=
  { m_Children := [{ m_eReturnStatus := Status.failure },
                   { m_eReturnStatus := Status.success }] }

end bt1

namespace bt3

/-- enum Status of BehaviorTreeOptimized.cpp. -/
inductive Status
  | invalid
  | success
  | failure
  | running
deriving DecidableEq

/-- `k_MaxBehaviorTreeMemory` (BehaviorTreeOptimized.cpp line 66). -/
def k_MaxBehaviorTreeMemory : Nat := 8192

/-- `class BehaviorTree` (BehaviorTreeOptimized.cpp lines 68-94): a
fixed-capacity bump allocator over one byte buffer.  `placed` is ghost
instrumentation recording the (offset, size) of each successful allocation. -/
structure BehaviorTree where
  m_iOffset : Nat := 0
  placed : List (Nat × Nat) := []
deriving DecidableEq

/-- A freshly constructed arena: offset 0, nothing placed. -/
def emptyArena : BehaviorTree := {}

/-- `allocate<T>()` (lines 82-89): placement-construct T at the current
offset, advance the offset by sizeof(T), then
`ASSERT(m_iOffset < k_MaxBehaviorTreeMemory)`.  Assertion failure is none. -/
def allocate (sz : Nat) (bt : BehaviorTree) : Option BehaviorTree :=
  if bt.m_iOffset + sz < k_MaxBehaviorTreeMemory then
    some { m_iOffset := bt.m_iOffset + sz, placed := bt.placed ++ [(bt.m_iOffset, sz)] }
  else none

/-- Allocate a list of records in order, stopping at the first assertion
failure; returns the last arena state built and whether every allocation
succeeded. -/
def allocAll : List Nat → BehaviorTree → BehaviorTree × Bool
  | [], bt => (bt, true)
  | sz :: rest, bt =>
    match allocate sz bt with
    | none => (bt, false)
    | some bt2 => allocAll rest bt2

/-- Whether bump-allocating these sizes from offset `off` keeps every
post-allocation offset strictly below the capacity. -/
def fitsFrom : Nat → List Nat → Bool
  | _, [] => true
  | off, sz :: rest =>
    decide (off + sz < k_MaxBehaviorTreeMemory) && fitsFrom (off + sz) rest

/-- The (offset, size) placements a successful run from offset `off`
produces: each record sits at the sum of the sizes preceding it. -/
def expPlaced : Nat → List Nat → List (Nat × Nat)
  | _, [] => []
  | off, sz :: rest => (off, sz) :: expPlaced (off + sz) rest

/-- `k_MaxChildrenPerComposite` (line 173). -/
def k_MaxChildrenPerComposite : Nat := 7

/-- `class Composite` (lines 175-205): children stored as uint16 byte offsets
relative to the composite's own address.  `base` models the composite's
address `(uintptr_t)this`; `m_Children` the stored 16-bit values; the child
count is the list length. -/
structure Composite where
  base : Nat
  m_Children : List Nat := []
deriving DecidableEq

/-- `addChild` (lines 183-189): `ASSERT(m_ChildCount < k_MaxChildrenPerComposite)`;
compute the signed ptrdiff `p = &child - this`; `ASSERT(p < 65535)` (no lower
bound); store `static_cast<uint16_t>(p)`, i.e. `p` reduced mod 2^16. -/
def Composite.addChild (c : Composite) (childAddr : Nat) : Option Composite :=
  if c.m_Children.length < k_MaxChildrenPerComposite then
    if ((childAddr : Int) - (c.base : Int)) < 65535 then
      some { c with
        m_Children := c.m_Children ++ [(((childAddr : Int) - (c.base : Int)) % 65536).toNat] }
    else none
  else none

/-- `getChild` (lines 191-195): `ASSERT(index < m_ChildCount)`; return the
behavior at address `(uintptr_t)this + m_Children[index]`. -/
def Composite.getChild (c : Composite) (index : Nat) : Option Nat :=
  match c.m_Children.get? index with
  | none => none
  | some off => some (c.base + off)

/-- Add a list of children in order (as MockComposite::initialize does). -/
def addAll : List Nat → Composite → Option Composite
  | [], c => some c
  | a :: rest, c =>
    match c.addChild a with
    | none => none
    | some c2 => addAll rest c2

/-- The composite the C8 counterexample starts from: its own address is
100000 and it has no children yet. -/
def negComposite : Composite := { base := 100000 }

end bt3

namespace bt2

/-- enum Status of BehaviorTreeShared.cpp. -/
inductive Status
  | invalid
  | success
  | failure
  | running
deriving DecidableEq

/-- `class Behavior` (BehaviorTreeShared.cpp lines 57-127): a handle binding
at most one task (task ids stand for `Task*` values), plus the status field. -/
structure Behavior where
  m_pTask : Option Nat := none
  m_eStatus : Status := Status.invalid
deriving DecidableEq

/-- `teardown()` (lines 91-101): return immediately when no task is bound;
otherwise `ASSERT(m_eStatus != BH_RUNNING)`, call `node.destroy(task)` and
clear the binding.  Returns the new handle together with the id of the task
passed to destroy, or `none` on assertion failure. -/
def Behavior.teardown (b : Behavior) : Option (Behavior × Option Nat) :=
  match b.m_pTask with
  | none => some (b, none)
  | some t =>
    if b.m_eStatus = Status.running then none
    else some ({ b with m_pTask := none }, some t)

/-- `~Behavior()` (lines 78-82): the destructor first resets `m_eStatus` to
invalid and only then calls `teardown()`. -/
def Behavior.dtor (b : Behavior) : Option (Behavior × Option Nat) :=
  Behavior.teardown { b with m_eStatus := Status.invalid }

end bt2

namespace bt4

/-- enum Status of BehaviorTreeEvent.cpp (this variant adds BH_SUSPENDED). -/
inductive Status
  | invalid
  | success
  | failure
  | running
  | suspended
deriving DecidableEq

/-- The shapes of behavior the source builds on this scheduler: MockBehavior
(update returns the configurable `ret`), and Sequence (children listed by
behavior id; update always returns running, the work happens in the
onChildComplete observer). -/
inductive BKind
  | mock (ret : Status)
  | seq (children : List Nat)
deriving DecidableEq

/-- Per-behavior state: kind, the Behavior fields `m_eStatus` and
`m_Observer` (the only observer value the source ever constructs is
Sequence::onChildComplete bound to a parent sequence, so an observer is the
parent's id), the Sequence cursor `m_Current`, and the MockBehavior counters
(kept for every kind, as ghost instrumentation for the others). -/
structure BData where
  kind : BKind
  m_eStatus : Status := Status.invalid
  m_Observer : Option Nat := none
  m_Current : Nat := 0
  m_iInitializeCalled : Nat := 0
  m_iUpdateCalled : Nat := 0
  m_iTerminateCalled : Nat := 0
  m_eTerminateStatus : Status := Status.invalid
deriving DecidableEq

/-- `class BehaviorTree` (BehaviorTreeEvent.cpp lines 68-132): the behavior
store (ids stand for Behavior* values), the deque `m_Behaviors` (`none` is
the NULL end-of-update marker), and a ghost log of observer invocations
(observer owner, status argument). -/
structure Sched where
  store : List (Nat × BData)
  m_Behaviors : List (Option Nat) := []
  log : List (Nat × Status) := []
deriving DecidableEq

/-- Association-list lookup in the store. -/
def findB : List (Nat × BData) → Nat → Option BData
  | [], _ => none
  | (j, d) :: rest, i => if i = j then some d else findB rest i

/-- Association-list update in the store (no-op on an absent id, which
corresponds to a dangling Behavior* and cannot arise from the source). -/
def putB : List (Nat × BData) → Nat → BData → List (Nat × BData)
  | [], _, _ => []
  | (j, d) :: rest, i, d2 =>
    if i = j then (j, d2) :: rest else (j, d) :: putB rest i d2

/-- Store an updated behavior record; the queue and log are untouched. -/
def setB (st : Sched) (i : Nat) (d : BData) : Sched :=
  { st with store := putB st.store i d }

/-- The behaviors currently in the queue (sentinels skipped). -/
def queueIds (st : Sched) : List Nat := st.m_Behaviors.filterMap (fun x => x)

/-- A behavior's update-call count (0 for an id not in the store). -/
def updCount (st : Sched) (b : Nat) : Nat :=
  match findB st.store b with
  | some d => d.m_iUpdateCalled
  | none => 0

/-- A behavior's onTerminate-call count (0 for an id not in the store). -/
def termCount (st : Sched) (b : Nat) : Nat :=
  match findB st.store b with
  | some d => d.m_iTerminateCalled
  | none => 0

/-- `BehaviorTree::start` (lines 72-79): overwrite the observer slot when an
observer is passed (a null pointer leaves it alone), then push the behavior
onto the FRONT of the queue. -/
def start (st : Sched) (bh : Nat) (obs : Option Nat) : Option Sched :=
  match findB st.store bh with
  | none => none
  | some d =>
    let d2 := match obs with
      | none => d
      | some p => { d with m_Observer := some p }
    some { st with store := putB st.store bh d2,
                   m_Behaviors := some bh :: st.m_Behaviors }

/-- The data change `Behavior::tick` (lines 43-57) applies to a MockBehavior
whose update returns `ret`: onInitialize counts when the status was invalid;
update counts and yields `ret`; onTerminate counts when `ret` is not
running. -/
def tickMockData (d : BData) (ret : Status) : BData :=
  let d1 := if d.m_eStatus = Status.invalid
    then { d with m_iInitializeCalled := d.m_iInitializeCalled + 1 } else d
  let d2 := { d1 with m_iUpdateCalled := d1.m_iUpdateCalled + 1, m_eStatus := ret }
  if ret ≠ Status.running
    then { d2 with m_iTerminateCalled := d2.m_iTerminateCalled + 1,
                   m_eTerminateStatus := ret }
    else d2

/-- The data change Sequence::update applies: update counts and returns
BH_RUNNING (so the non-overridden onTerminate never fires from a tick). -/
def seqUpdateData (d : BData) : BData :=
  { d with m_iUpdateCalled := d.m_iUpdateCalled + 1, m_eStatus := Status.running }

/-- `Behavior::tick` performed on behavior `bh` against the scheduler state:
for a Sequence with invalid status, onInitialize (lines 236-241) resets the
cursor and starts the first child with the onChildComplete observer — which
mutates the queue — before update runs.  An empty child vector dereferences
begin() (undefined): none. -/
def tickBehavior (st : Sched) (bh : Nat) : Option Sched :=
  match findB st.store bh with
  | none => none
  | some d =>
    match d.kind with
    | BKind.mock ret => some (setB st bh (tickMockData d ret))
    | BKind.seq children =>
      if d.m_eStatus = Status.invalid then
        match children with
        | [] => none
        | c0 :: _ =>
          let st1 := setB st bh
            { d with m_Current := 0,
                     m_iInitializeCalled := d.m_iInitializeCalled + 1 }
          match start st1 c0 (some bh) with
          | none => none
          | some st2 =>
            match findB st2.store bh with
            | none => none
            | some d2 => some (setB st2 bh (seqUpdateData d2))
      else some (setB st bh (seqUpdateData d))

mutual

/-- `BehaviorTree::stop` (lines 81-90): `ASSERT(result != BH_RUNNING)`; assign
the result as the behavior's status out-of-band; when an observer is attached,
invoke it synchronously with the result (logged, then the cascade runs).
The fuel bounds the cascade depth; exhausting it is none. -/
def stopB : Nat → Sched → Nat → Status → Option Sched
  | 0, _, _, _ => none
  | fuel + 1, st, bh, result =>
    if result = Status.running then none
    else
      match findB st.store bh with
      | none => none
      | some d =>
        let st1 := setB st bh { d with m_eStatus := result }
        match d.m_Observer with
        | none => some st1
        | some p =>
          onChildComplete fuel { st1 with log := st1.log ++ [(bh, result)] } p

/-- `Sequence::onChildComplete` (lines 243-262) for the sequence `p`: read the
current child's stored status; on failure stop self with failure; otherwise
`ASSERT(child == BH_SUCCESS)`; advance the cursor; when past the last child
stop self with success, else start the next child with this observer. -/
def onChildComplete : Nat → Sched → Nat → Option Sched
  | 0, _, _ => none
  | fuel + 1, st, p =>
    match findB st.store p with
    | none => none
    | some d =>
      match d.kind with
      | BKind.mock _ => none
      | BKind.seq children =>
        match children.get? d.m_Current with
        | none => none
        | some c =>
          match findB st.store c with
          | none => none
          | some cd =>
            if cd.m_eStatus = Status.failure then
              stopB fuel st p Status.failure
            else if cd.m_eStatus ≠ Status.success then none
            else
              let st1 := setB st p { d with m_Current := d.m_Current + 1 }
              if d.m_Current + 1 = children.length then
                stopB fuel st1 p Status.success
              else
                match children.get? (d.m_Current + 1) with
                | none => none
                | some cnext => start st1 cnext (some p)

end

/-- `BehaviorTree::step` (lines 104-128): pop the front entry; the NULL
sentinel ends the frame (returns false); otherwise tick the behavior; if it
terminated and has an observer, invoke the observer (logged, cascade runs)
and drop the behavior; otherwise re-enqueue it at the back. -/
def step (fuel : Nat) (st : Sched) : Option (Sched × Bool) :=
  match st.m_Behaviors with
  | [] => none
  | q0 :: rest =>
    match q0 with
    | none => some ({ st with m_Behaviors := rest }, false)
    | some b =>
      match tickBehavior { st with m_Behaviors := rest } b with
      | none => none
      | some st1 =>
        match findB st1.store b with
        | none => none
        | some d =>
          if d.m_eStatus ≠ Status.running then
            match d.m_Observer with
            | some p =>
              (onChildComplete fuel
                { st1 with log := st1.log ++ [(b, d.m_eStatus)] } p).map
                (fun st2 => (st2, true))
            | none =>
              some ({ st1 with m_Behaviors := st1.m_Behaviors ++ [some b] }, true)
          else some ({ st1 with m_Behaviors := st1.m_Behaviors ++ [some b] }, true)

/-- The `while (step()) continue;` loop of `BehaviorTree::tick`. -/
def runSteps : Nat → Sched → Option Sched
  | 0, _ => none
  | fuel + 1, st =>
    match step fuel st with
    | none => none
    | some (st1, true) => runSteps fuel st1
    | some (st1, false) => some st1

/-- `BehaviorTree::tick` (lines 92-102): push the end-of-update marker onto
the back, then step until the marker is consumed. -/
def tick (fuel : Nat) (st : Sched) : Option Sched :=
  runSteps fuel { st with m_Behaviors := st.m_Behaviors ++ [none] }

/-- Whether a kind is the MockBehavior kind. -/
def isMockKind : BKind → Bool
  | BKind.mock _ => true
  | BKind.seq _ => false

/-- Whether behavior `b` is stored as a mock with no observer attached. -/
def freeMockB (st : Sched) (b : Nat) : Bool :=
  match findB st.store b with
  | some d => isMockKind d.kind && d.m_Observer.isNone
  | none => false

/-- A behavior's kind and observer slot (the fields a frame of ticking never
changes for observer-free mocks). -/
def kindObs (st : Sched) (x : Nat) : Option (BKind × Option Nat) :=
  (findB st.store x).map (fun d => (d.kind, d.m_Observer))

/-- A behavior's (update, terminate) call counters, the fields stop/cascade
code never touches. -/
def counts (st : Sched) (x : Nat) : Option (Nat × Nat) :=
  (findB st.store x).map (fun d => (d.m_iUpdateCalled, d.m_iTerminateCalled))

/-- Every stored behavior is a mock with no observer attached. -/
def obsFreeStore (store : List (Nat × BData)) : Prop :=
  ∀ pr ∈ store, isMockKind pr.2.kind = true ∧ pr.2.m_Observer = none

/-- The invariant of the observer-free scheduler: an observer-free store and a
duplicate-free queue. -/
def InvFree (st : Sched) : Prop :=
  obsFreeStore st.store ∧ (queueIds st).Nodup

/-- The children a sequence may still start during the current frame: all of
them while uninitialized (onInitialize starts children[0]), and those strictly
after the cursor's successor once initialized (onChildComplete advances the
cursor before starting a child).  Mocks start nothing. -/
def pend (d : BData) : List Nat :=
  match d.kind with
  | BKind.mock _ => []
  | BKind.seq children =>
    if d.m_eStatus = Status.invalid then children
    else children.drop (d.m_Current + 1)

/-- Total number of pending-start slots for behavior `b` across the store. -/
def pendTotal (store : List (Nat × BData)) (b : Nat) : Nat :=
  (store.map (fun pr => (pend pr.2).count b)).sum

/-- The queue segment before the first end-of-update marker: the behaviors the
current frame will still pop. -/
def frontIds (st : Sched) : List Nat :=
  (st.m_Behaviors.takeWhile (fun x => x.isSome)).filterMap (fun x => x)

/-- How many more times behavior `b` can be ticked this frame: occurrences
before the sentinel plus pending-start slots. -/
def occCount (st : Sched) (b : Nat) : Nat :=
  (frontIds st).count b + pendTotal st.store b

/-- Executable check that every observer edge targets an initialized
sequence (or a mock, for which the cascade cannot advance a cursor). -/
def obsEdgesOkB (st : Sched) : Bool :=
  st.store.all (fun pr =>
    match pr.2.m_Observer with
    | none => true
    | some p =>
      match findB st.store p with
      | none => true
      | some dp => isMockKind dp.kind || decide (dp.m_eStatus ≠ Status.invalid))

/-- Propositional form of the observer-edge condition, phrased over store
lookups. -/
def EdgesOkP (st : Sched) : Prop :=
  ∀ c dc, findB st.store c = some dc → ∀ p, dc.m_Observer = some p →
    ∀ dp, findB st.store p = some dp →
      isMockKind dp.kind = false → dp.m_eStatus ≠ Status.invalid

/-- The per-step invariant of one BehaviorTree::tick frame relative to the
frame-start state `st0`: every update count grew by at most one; behaviors
still due to be ticked have not been ticked; no behavior is due more than
once; ticks owed to behaviors queued at frame start have been paid or are
still pending in the pre-sentinel queue; the frame sentinel is still in the
queue; observer edges stay well-formed. -/
def TickInv (st0 st : Sched) : Prop :=
  (∀ b, updCount st b ≤ updCount st0 b + 1)
  ∧ (∀ b, 1 ≤ occCount st b → updCount st b = updCount st0 b)
  ∧ (∀ b, occCount st b ≤ 1)
  ∧ (∀ b, updCount st0 b + (frontIds st0).count b
        ≤ updCount st b + (frontIds st).count b)
  ∧ none ∈ st.m_Behaviors
  ∧ EdgesOkP st

/-- States reachable by interleaving the scheduler's public operations,
starting from an empty queue over a store of observer-free mock behaviors,
where `start` is only invoked on a behavior not currently queued and without
attaching an observer. -/
inductive Reach : Sched → Prop
  | base (store : List (Nat × BData)) :
      (∀ pr ∈ store, isMockKind pr.2.kind = true ∧ pr.2.m_Observer = none) →
      Reach { store := store }
  | start_op (st : Sched) (b : Nat) (st2 : Sched) :
      Reach st → b ∉ queueIds st → start st b none = some st2 → Reach st2
  | stop_op (st : Sched) (fuel b : Nat) (r : Status) (st2 : Sched) :
      Reach st → stopB fuel st b r = some st2 → Reach st2
  | step_op (st : Sched) (fuel : Nat) (st2 : Sched) (cont : Bool) :
      Reach st → step fuel st = some (st2, cont) → Reach st2
  | tick_op (st : Sched) (fuel : Nat) (st2 : Sched) :
      Reach st → tick fuel st = some st2 → Reach st2

/-- C4 scenario state: behavior A (id 0, running mock, no observer) started
into a scheduler already holding 3 other queued running behaviors. -/
def schedC4 : Sched :=
  { store := [(0, { kind := BKind.mock Status.running, m_eStatus := Status.running }),
              (1, { kind := BKind.mock Status.running, m_eStatus := Status.running }),
              (2, { kind := BKind.mock Status.running, m_eStatus := Status.running }),
              (3, { kind := BKind.mock Status.running, m_eStatus := Status.running })],
    m_Behaviors := [some 0, some 1, some 2, some 3] }

/-- C6 counterexample start state: one stored mock, empty queue. -/
def schedC6 : Sched :=
  { store := [(0, { kind := BKind.mock Status.running })] }

/-- C7 witness state: mock 0 is the current child of sequence 1 and carries
its observer; the sequence is running with its cursor on child 0. -/
def schedC7 : Sched :=
  { store := [(0, { kind := BKind.mock Status.running,
                    m_eStatus := Status.failure, m_Observer := some 1 }),
              (1, { kind := BKind.seq [0], m_eStatus := Status.running })] }

/-- C10 witness state: an observer-free running mock sitting at the front of
the queue. -/
def schedC10 : Sched :=
  { store := [(0, { kind := BKind.mock Status.running, m_eStatus := Status.running })],
    m_Behaviors := [some 0] }

/-- C6 sequence fixture: a running mock (id 0) and an uninitialized sequence
(id 1) whose only child is the mock; the queue starts empty. -/
def schedC6b : Sched :=
  { store := [(0, { kind := BKind.mock Status.running, m_eStatus := Status.running }),
              (1, { kind := BKind.seq [0] })] }

/-- Total queue occupancy of behavior `b`: occurrences anywhere in the queue
plus the child slots a stored sequence may still start (which the cascades
turn into queue entries without any membership check). -/
def QOcc (st : Sched) (b : Nat) : Nat :=
  (queueIds st).count b + pendTotal st.store b

/-- The well-formedness the queue invariant needs: every behavior has total
queue occupancy at most one, and observer edges target initialized
non-mock behaviors. -/
def InvQ (st : Sched) : Prop :=
  (∀ b, QOcc st b ≤ 1) ∧ EdgesOkP st

/-- States reachable by interleaving the scheduler operations over an
arbitrary store — mocks and sequences alike — starting from an empty queue
over a store whose pending-child slots mention each behavior at most once and
whose observer edges are well-formed.  start() is invoked as at every call
site of the source (child starts inside cascades carry the observer; the
public calls pass none) on a behavior with no queue occupancy, and stop()
passes a non-Invalid result (stop assigns a terminal result; re-assigning
Invalid would re-arm Sequence::onInitialize). -/
inductive ReachW : Sched → Prop
  | base (st : Sched) :
      st.m_Behaviors = [] → (∀ b, pendTotal st.store b ≤ 1) →
      obsEdgesOkB st = true → ReachW st
  | start_op (st : Sched) (b : Nat) (st2 : Sched) :
      ReachW st → QOcc st b = 0 → start st b none = some st2 → ReachW st2
  | stop_op (st : Sched) (fuel b : Nat) (r : Status) (st2 : Sched) :
      ReachW st → r ≠ Status.invalid → stopB fuel st b r = some st2 → ReachW st2
  | step_op (st : Sched) (fuel : Nat) (st2 : Sched) (cont : Bool) :
      ReachW st → step fuel st = some (st2, cont) → ReachW st2
  | tick_op (st : Sched) (fuel : Nat) (st2 : Sched) :
      ReachW st → tick fuel st = some st2 → ReachW st2

end bt4



namespace bt1

theorem MockBehavior.tick_snd (m : MockBehavior) : (m.tick).2 = m.m_eReturnStatus := by
  by_cases h : m.m_eStatus = Status.invalid <;>
    simp [MockBehavior.tick, Behavior.tick, mockImpl, h]

theorem firstNotSucc_some (l : List MockBehavior) (m : Nat)
    (h : firstNotSucc l = some m) :
    ∃ c, l.get? m = some c ∧ c.m_eReturnStatus ≠ Status.success := by
  induction l generalizing m with
  | nil => simp [firstNotSucc] at h
  | cons c rest ih =>
    by_cases hc : c.m_eReturnStatus = Status.success
    · simp only [firstNotSucc, hc, if_pos rfl] at h
      rcases Option.map_eq_some'.mp h with ⟨k, hk, rfl⟩
      rcases ih k hk with ⟨d, hd, hds⟩
      exact ⟨d, by simpa using hd, hds⟩
    · simp only [firstNotSucc, if_neg hc] at h
      cases h
      exact ⟨c, rfl, hc⟩

theorem firstNotFail_some (l : List MockBehavior) (m : Nat)
    (h : firstNotFail l = some m) :
    ∃ c, l.get? m = some c ∧ c.m_eReturnStatus ≠ Status.failure := by
  induction l generalizing m with
  | nil => simp [firstNotFail] at h
  | cons c rest ih =>
    by_cases hc : c.m_eReturnStatus = Status.failure
    · simp only [firstNotFail, hc, if_pos rfl] at h
      rcases Option.map_eq_some'.mp h with ⟨k, hk, rfl⟩
      rcases ih k hk with ⟨d, hd, hds⟩
      exact ⟨d, by simpa using hd, hds⟩
    · simp only [firstNotFail, if_neg hc] at h
      cases h
      exact ⟨c, rfl, hc⟩

theorem seqLoop_none (l : List MockBehavior) (h : firstNotSucc l = none) :
    seqLoop l = (l.map tickOnce, l.length, Status.success) := by
  induction l with
  | nil => simp [seqLoop]
  | cons c rest ih =>
    by_cases hc : c.m_eReturnStatus = Status.success
    · simp [firstNotSucc, hc, Option.map_eq_none'] at h
      simp [seqLoop, MockBehavior.tick_snd, hc, ih h, tickOnce]
    · simp [firstNotSucc, hc] at h

theorem seqLoop_some (l : List MockBehavior) (m : Nat) (c : MockBehavior)
    (h : firstNotSucc l = some m) (hg : l.get? m = some c) :
    seqLoop l = ((l.take (m + 1)).map tickOnce ++ l.drop (m + 1), m,
      c.m_eReturnStatus) := by
  induction l generalizing m c with
  | nil => simp [firstNotSucc] at h
  | cons a rest ih =>
    by_cases hc : a.m_eReturnStatus = Status.success
    · simp only [firstNotSucc, hc, if_pos rfl] at h
      rcases Option.map_eq_some'.mp h with ⟨k, hk, rfl⟩
      have hg' : rest.get? k = some c := by simpa using hg
      simp [seqLoop, MockBehavior.tick_snd, hc, ih k c hk hg', tickOnce]
    · simp only [firstNotSucc, if_neg hc] at h
      cases h
      have hc' : a = c := by simpa using hg
      subst hc'
      simp [seqLoop, MockBehavior.tick_snd, hc, tickOnce]

theorem selLoop_none (l : List MockBehavior) (h : firstNotFail l = none) :
    selLoop l = (l.map tickOnce, l.length, Status.failure) := by
  induction l with
  | nil => simp [selLoop]
  | cons c rest ih =>
    by_cases hc : c.m_eReturnStatus = Status.failure
    · simp [firstNotFail, hc, Option.map_eq_none'] at h
      simp [selLoop, MockBehavior.tick_snd, hc, ih h, tickOnce]
    · simp [firstNotFail, hc] at h

theorem selLoop_some (l : List MockBehavior) (m : Nat) (c : MockBehavior)
    (h : firstNotFail l = some m) (hg : l.get? m = some c) :
    selLoop l = ((l.take (m + 1)).map tickOnce ++ l.drop (m + 1), m,
      c.m_eReturnStatus) := by
  induction l generalizing m c with
  | nil => simp [firstNotFail] at h
  | cons a rest ih =>
    by_cases hc : a.m_eReturnStatus = Status.failure
    · simp only [firstNotFail, hc, if_pos rfl] at h
      rcases Option.map_eq_some'.mp h with ⟨k, hk, rfl⟩
      have hg' : rest.get? k = some c := by simpa using hg
      simp [selLoop, MockBehavior.tick_snd, hc, ih k c hk hg', tickOnce]
    · simp only [firstNotFail, if_neg hc] at h
      cases h
      have hc' : a = c := by simpa using hg
      subst hc'
      simp [selLoop, MockBehavior.tick_snd, hc, tickOnce]

/-- Claim C1: for every behavior, `tick()` calls `onInitialize` if and only if
the stored status is invalid and before `update` is evaluated, then calls
`update` to obtain the new status `s`, then calls `onTerminate s` if and only
if `s` is not running, and returns `s`; `onTerminate` never fires while the
resulting status is running.  Stated over the hook-call trace of the
instrumented behavior, for an arbitrary implementation, together with the
counter bookkeeping of the source's MockBehavior. -/
theorem C1_tick_contract {σ : Type} (impl : BehaviorImpl σ) (st : σ)
    (status : Status) :
    (Behavior.tick (instrument impl) (st, []) status).1.2
      = (if status = Status.invalid then [TickEvent.initEv] else [])
        ++ [TickEvent.updateEv]
        ++ (if (Behavior.tick impl st status).2 ≠ Status.running
            then [TickEvent.termEv (Behavior.tick impl st status).2] else [])
    ∧ (Behavior.tick (instrument impl) (st, []) status).2
        = (impl.update (if status = Status.invalid then impl.onInitialize st
            else st)).2
    ∧ ((Behavior.tick (instrument impl) (st, []) status).2 = Status.running →
        ∀ s, TickEvent.termEv s ∉ (Behavior.tick (instrument impl) (st, []) status).1.2)
    ∧ (∀ m : MockBehavior,
        (m.tick).1.m_iInitializeCalled
            = m.m_iInitializeCalled + (if m.m_eStatus = Status.invalid then 1 else 0)
        ∧ (m.tick).1.m_iUpdateCalled = m.m_iUpdateCalled + 1
        ∧ (m.tick).2 = m.m_eReturnStatus
        ∧ (m.tick).1.m_iTerminateCalled
            = m.m_iTerminateCalled
              + (if m.m_eReturnStatus ≠ Status.running then 1 else 0)
        ∧ (m.tick).1.m_eStatus = m.m_eReturnStatus) := by
  refine ⟨?_, ?_, ?_, ?_⟩
  · by_cases h : status = Status.invalid <;>
      by_cases h2 : (Behavior.tick impl st status).2 = Status.running <;>
      simp_all [Behavior.tick, instrument]
  · by_cases h : status = Status.invalid <;>
      simp [Behavior.tick, instrument, h] <;> split <;> simp
  · intro hr s
    by_cases h : status = Status.invalid <;>
      by_cases h2 : (Behavior.tick impl st status).2 = Status.running <;>
      simp_all [Behavior.tick, instrument]
  · intro m
    by_cases h : m.m_eStatus = Status.invalid <;>
      by_cases h2 : m.m_eReturnStatus = Status.running <;>
      simp [MockBehavior.tick, Behavior.tick, mockImpl, h, h2]

theorem seqTick_eq (sq : SequenceState) :
    sq.tick
      = (⟨sq.m_Children.take sq.cur0 ++ (seqLoop sq.todo).1,
          sq.cur0 + (seqLoop sq.todo).2.1,
          (seqLoop sq.todo).2.2⟩,
        (seqLoop sq.todo).2.2) := by
  by_cases h : sq.m_eStatus = Status.invalid <;>
    simp [SequenceState.tick, Behavior.tick, seqImpl, SequenceState.cur0,
      SequenceState.todo, h] <;> split <;> simp

theorem selTick_eq (sel : SelectorState) :
    sel.tick
      = (⟨sel.m_Children.take sel.cur0 ++ (selLoop sel.todo).1,
          sel.cur0 + (selLoop sel.todo).2.1,
          (selLoop sel.todo).2.2⟩,
        (selLoop sel.todo).2.2) := by
  by_cases h : sel.m_eStatus = Status.invalid <;>
    simp [SelectorState.tick, Behavior.tick, selImpl, SelectorState.cur0,
      SelectorState.todo, h] <;> split <;> simp

theorem drop_append_pair {α : Type} (pre mid post : List α) (a b : Nat)
    (hpre : pre.length = a) (hmid : mid.length = b) :
    (pre ++ (mid ++ post)).drop (a + b) = post := by
  subst hpre
  subst hmid
  rw [← List.append_assoc, ← List.length_append]
  exact List.drop_left _ _

/-- Claim C2: ticking a Sequence over at least one child (with a valid cursor)
returns running while the currently evaluated child returns running, returns
failure as soon as a child's tick returns failure — children after that child
are left completely untouched, so never initialized or ticked — and returns
success exactly when every child from the cursor on returns success, the
cursor having advanced past all of them in strict left-to-right order. -/
theorem C2_sequence (sq : SequenceState) (hcur : sq.cur0 < sq.m_Children.length) :
    ((sq.tick).2 = Status.success ↔ firstNotSucc sq.todo = none)
    ∧ (firstNotSucc sq.todo = none →
        (sq.tick).2 = Status.success
        ∧ (sq.tick).1.m_eStatus = Status.success
        ∧ (sq.tick).1.m_CurrentChild = sq.m_Children.length
        ∧ (sq.tick).1.m_Children
            = sq.m_Children.take sq.cur0 ++ sq.todo.map tickOnce)
    ∧ (∀ m c, firstNotSucc sq.todo = some m → sq.todo.get? m = some c →
        (sq.tick).2 = c.m_eReturnStatus
        ∧ c.m_eReturnStatus ≠ Status.success
        ∧ (sq.tick).1.m_eStatus = c.m_eReturnStatus
        ∧ (sq.tick).1.m_CurrentChild = sq.cur0 + m
        ∧ (sq.tick).1.m_Children
            = sq.m_Children.take sq.cur0
              ++ (sq.todo.take (m + 1)).map tickOnce ++ sq.todo.drop (m + 1)
        ∧ (sq.tick).1.m_Children.drop (sq.cur0 + m + 1)
            = sq.m_Children.drop (sq.cur0 + m + 1)) := by
  have hlen : (sq.m_Children.take sq.cur0).length = sq.cur0 :=
    List.length_take_of_le (Nat.le_of_lt hcur)
  refine ⟨?_, ?_, ?_⟩
  · constructor
    · intro hs
      cases hf : firstNotSucc sq.todo with
      | none => rfl
      | some m =>
        rcases firstNotSucc_some _ _ hf with ⟨c, hg, hcs⟩
        rw [seqTick_eq, seqLoop_some _ _ _ hf hg] at hs
        exact absurd hs hcs
    · intro hf
      rw [seqTick_eq, seqLoop_none _ hf]
  · intro hf
    rw [seqTick_eq, seqLoop_none _ hf]
    refine ⟨rfl, rfl, ?_, rfl⟩
    simp only [SequenceState.todo, List.length_drop]
    omega
  · intro m c hf hg
    rcases firstNotSucc_some _ _ hf with ⟨c2, hg2, hcs⟩
    have hcc : c2 = c := by rw [hg2] at hg; exact Option.some.inj hg
    subst hcc
    rw [seqTick_eq, seqLoop_some _ _ _ hf hg2]
    have hml0 : m < sq.todo.length := by
      rcases List.get?_eq_some.mp hg2 with ⟨h, _⟩
      exact h
    refine ⟨rfl, hcs, rfl, rfl, by simp, ?_⟩
    have h1 : ((sq.todo.take (m + 1)).map tickOnce).length = m + 1 := by
      simp [List.length_take, Nat.min_eq_left hml0]
    have e0 : sq.cur0 + m + 1 = sq.cur0 + (m + 1) := by omega
    dsimp only
    rw [e0, drop_append_pair _ _ _ _ _ hlen h1, SequenceState.todo, List.drop_drop]

/-- Claim C3: ticking a Selector over at least one child (with a valid cursor)
— the dual of the Sequence — returns success as soon as a child's tick returns
success, with later children left completely untouched, returns running while
the currently evaluated child returns running, and returns failure exactly
when every child from the cursor on returns failure, the cursor having
advanced past all of them in strict left-to-right order. -/
theorem C3_selector (sel : SelectorState) (hcur : sel.cur0 < sel.m_Children.length) :
    ((sel.tick).2 = Status.failure ↔ firstNotFail sel.todo = none)
    ∧ (firstNotFail sel.todo = none →
        (sel.tick).2 = Status.failure
        ∧ (sel.tick).1.m_eStatus = Status.failure
        ∧ (sel.tick).1.m_Current = sel.m_Children.length
        ∧ (sel.tick).1.m_Children
            = sel.m_Children.take sel.cur0 ++ sel.todo.map tickOnce)
    ∧ (∀ m c, firstNotFail sel.todo = some m → sel.todo.get? m = some c →
        (sel.tick).2 = c.m_eReturnStatus
        ∧ c.m_eReturnStatus ≠ Status.failure
        ∧ (sel.tick).1.m_eStatus = c.m_eReturnStatus
        ∧ (sel.tick).1.m_Current = sel.cur0 + m
        ∧ (sel.tick).1.m_Children
            = sel.m_Children.take sel.cur0
              ++ (sel.todo.take (m + 1)).map tickOnce ++ sel.todo.drop (m + 1)
        ∧ (sel.tick).1.m_Children.drop (sel.cur0 + m + 1)
            = sel.m_Children.drop (sel.cur0 + m + 1)) := by
  have hlen : (sel.m_Children.take sel.cur0).length = sel.cur0 :=
    List.length_take_of_le (Nat.le_of_lt hcur)
  refine ⟨?_, ?_, ?_⟩
  · constructor
    · intro hs
      cases hf : firstNotFail sel.todo with
      | none => rfl
      | some m =>
        rcases firstNotFail_some _ _ hf with ⟨c, hg, hcs⟩
        rw [selTick_eq, selLoop_some _ _ _ hf hg] at hs
        exact absurd hs hcs
    · intro hf
      rw [selTick_eq, selLoop_none _ hf]
  · intro hf
    rw [selTick_eq, selLoop_none _ hf]
    refine ⟨rfl, rfl, ?_, rfl⟩
    simp only [SelectorState.todo, List.length_drop]
    omega
  · intro m c hf hg
    rcases firstNotFail_some _ _ hf with ⟨c2, hg2, hcs⟩
    have hcc : c2 = c := by rw [hg2] at hg; exact Option.some.inj hg
    subst hcc
    rw [selTick_eq, selLoop_some _ _ _ hf hg2]
    have hml0 : m < sel.todo.length := by
      rcases List.get?_eq_some.mp hg2 with ⟨h, _⟩
      exact h
    refine ⟨rfl, hcs, rfl, rfl, by simp, ?_⟩
    have h1 : ((sel.todo.take (m + 1)).map tickOnce).length = m + 1 := by
      simp [List.length_take, Nat.min_eq_left hml0]
    have e0 : sel.cur0 + m + 1 = sel.cur0 + (m + 1) := by omega
    dsimp only
    rw [e0, drop_append_pair _ _ _ _ _ hlen h1, SelectorState.todo, List.drop_drop]

/-- Witness for C2: the fixture sequence fails at its second child. -/
theorem C2_sequence_witness :
    seqFix.cur0 < seqFix.m_Children.length ∧ (seqFix.tick).2 = Status.failure := by
  refine ⟨by decide, ?_⟩
  exact ((C2_sequence seqFix (by decide)).2.2 1
    { m_eReturnStatus := Status.failure } (by decide) (by decide)).1

/-- Witness for C3: the fixture selector succeeds at its second child. -/
theorem C3_selector_witness :
    selFix.cur0 < selFix.m_Children.length ∧ (selFix.tick).2 = Status.success := by
  refine ⟨by decide, ?_⟩
  exact ((C3_selector selFix (by decide)).2.2 1
    { m_eReturnStatus := Status.success } (by decide) (by decide)).1

end bt1

namespace bt3

theorem allocAll_fits (l : List Nat) : ∀ bt : BehaviorTree,
    fitsFrom bt.m_iOffset l = true →
    allocAll l bt
      = ({ m_iOffset := bt.m_iOffset + l.sum,
           placed := bt.placed ++ expPlaced bt.m_iOffset l }, true) := by
  induction l with
  | nil => intro bt _; simp [allocAll, expPlaced]
  | cons sz rest ih =>
    intro bt h
    simp only [fitsFrom, Bool.and_eq_true, decide_eq_true_eq] at h
    obtain ⟨h1, h2⟩ := h
    have ha : allocate sz bt
        = some { m_iOffset := bt.m_iOffset + sz,
                 placed := bt.placed ++ [(bt.m_iOffset, sz)] } := by
      simp [allocate, h1]
    simp only [allocAll, ha]
    rw [ih { m_iOffset := bt.m_iOffset + sz, placed := bt.placed ++ [(bt.m_iOffset, sz)] } h2]
    simp [expPlaced, BehaviorTree.mk.injEq, List.append_assoc, Nat.add_assoc]

theorem allocAll_fail (sz : Nat) (l2 : List Nat) : ∀ (l1 : List Nat) (bt : BehaviorTree),
    fitsFrom bt.m_iOffset l1 = true →
    k_MaxBehaviorTreeMemory ≤ bt.m_iOffset + l1.sum + sz →
    allocAll (l1 ++ sz :: l2) bt
      = ({ m_iOffset := bt.m_iOffset + l1.sum,
           placed := bt.placed ++ expPlaced bt.m_iOffset l1 }, false) := by
  intro l1
  induction l1 with
  | nil =>
    intro bt _ hge
    have ha : allocate sz bt = none := by
      simp only [allocate, List.sum_nil, Nat.add_zero] at *
      rw [if_neg]
      omega
    simp [allocAll, ha, expPlaced]
  | cons a rest ih =>
    intro bt h hge
    simp only [fitsFrom, Bool.and_eq_true, decide_eq_true_eq] at h
    obtain ⟨h1, h2⟩ := h
    have ha : allocate a bt
        = some { m_iOffset := bt.m_iOffset + a,
                 placed := bt.placed ++ [(bt.m_iOffset, a)] } := by
      simp [allocate, h1]
    simp only [List.cons_append, allocAll, ha, List.append_eq]
    rw [ih { m_iOffset := bt.m_iOffset + a, placed := bt.placed ++ [(bt.m_iOffset, a)] }
      h2 (by simp at hge ⊢; omega)]
    simp [expPlaced, BehaviorTree.mk.injEq, List.append_assoc, Nat.add_assoc]

/-- Claim C5 (amended): allocating record sizes in order on a fresh arena
places each record at the sum of the sizes preceding it and advances the
offset by each size; the first allocation whose new offset would reach or
exceed the capacity (the post-bump ASSERT is `m_iOffset < 8192`, so offset
= 8192 already fails) triggers the assertion, and the allocations made
before it remain placed at their prefix-sum offsets. -/
theorem C5_arena (l : List Nat) :
    (fitsFrom 0 l = true →
      allocAll l emptyArena
        = ({ m_iOffset := l.sum, placed := expPlaced 0 l }, true))
    ∧ (∀ l1 sz l2, l = l1 ++ sz :: l2 → fitsFrom 0 l1 = true →
        k_MaxBehaviorTreeMemory ≤ l1.sum + sz →
        allocAll l emptyArena
          = ({ m_iOffset := l1.sum, placed := expPlaced 0 l1 }, false)) := by
  constructor
  · intro h
    have := allocAll_fits l emptyArena h
    simpa [emptyArena] using this
  · rintro l1 sz l2 rfl h hge
    have := allocAll_fail sz l2 l1 emptyArena h (by simpa [emptyArena] using hge)
    simpa [emptyArena] using this

/-- Witness for C5: sizes 4096 and 4095 fit; a further 10-byte allocation
(new offset 8201) fails, leaving the first two records placed at 0 and 4096. -/
theorem C5_arena_witness :
    fitsFrom 0 [4096, 4095] = true
    ∧ allocAll [4096, 4095, 10] emptyArena
        = ({ m_iOffset := 8191, placed := [(0, 4096), (4096, 4095)] }, false) := by
  refine ⟨by decide, ?_⟩
  exact ((C5_arena [4096, 4095, 10]).2 [4096, 4095] 10 [] rfl (by decide)
    (by decide)).trans (by decide)

/-- Counterexample to C5 as stated: two 4096-byte allocations. The second
allocation's new offset is exactly 8192 — it does not exceed the 8192-byte
capacity — yet `ASSERT(m_iOffset < k_MaxBehaviorTreeMemory)` fails and the
allocation is refused. -/
theorem C5_counterexample :
    allocAll [4096, 4096] emptyArena
      = ({ m_iOffset := 4096, placed := [(0, 4096)] }, false)
    ∧ ¬ (4096 + 4096 > k_MaxBehaviorTreeMemory) := by
  exact ⟨by decide, by decide⟩

theorem getChild_eq (c : Composite) (i : Nat) :
    c.getChild i = (c.m_Children.get? i).map (fun off => c.base + off) := by
  unfold Composite.getChild
  cases c.m_Children.get? i <;> rfl

theorem addAll_ok (addrs : List Nat) : ∀ (c : Composite) (ts : List Nat),
    c.m_Children.length = ts.length →
    (∀ i a, ts.get? i = some a → c.getChild i = some a) →
    ts.length + addrs.length ≤ k_MaxChildrenPerComposite →
    (∀ a ∈ addrs, c.base ≤ a ∧ (a : Int) - (c.base : Int) < 65535) →
    ∃ c2, addAll addrs c = some c2
      ∧ c2.base = c.base
      ∧ c2.m_Children.length = ts.length + addrs.length
      ∧ (∀ i a, (ts ++ addrs).get? i = some a → c2.getChild i = some a) := by
  induction addrs with
  | nil =>
    intro c ts hl hg hcount _
    exact ⟨c, rfl, rfl, by simpa using hl, by simpa using hg⟩
  | cons a rest ih =>
    intro c ts hl hg hcount hoff
    obtain ⟨hbase, hlt⟩ := hoff a (by simp)
    have hlen7 : c.m_Children.length < k_MaxChildrenPerComposite := by
      rw [hl]
      simp at hcount
      omega
    have h0 : (0 : Int) ≤ (a : Int) - (c.base : Int) := by
      omega
    have hstore : ((((a : Int) - (c.base : Int)) % 65536)).toNat = a - c.base := by
      rw [Int.emod_eq_of_lt h0 (by omega), Int.toNat_sub]
    have hadd : c.addChild a
        = some { c with m_Children := c.m_Children ++ [a - c.base] } := by
      simp [Composite.addChild, hlen7, hlt, hstore]
    have hg1 : ∀ i b, (ts ++ [a]).get? i = some b →
        Composite.getChild { c with m_Children := c.m_Children ++ [a - c.base] } i
          = some b := by
      intro i b hib
      rw [getChild_eq]
      by_cases hi : i < ts.length
      · rw [List.get?_append hi] at hib
        have := hg i b hib
        rw [getChild_eq] at this
        rw [List.get?_append (by rw [hl]; exact hi)]
        exact this
      · have hieq : i = ts.length := by
          rcases List.get?_eq_some.mp hib with ⟨hb, _⟩
          simp at hb
          omega
        subst hieq
        rw [List.get?_concat_length ts a] at hib
        cases hib
        rw [← hl, List.get?_concat_length]
        simp [Nat.add_sub_cancel' hbase]
    have := ih { c with m_Children := c.m_Children ++ [a - c.base] } (ts ++ [a])
      (by simp [hl]) hg1
      (by simp at hcount ⊢; omega)
      (by intro x hx; exact hoff x (by simp [hx]))
    obtain ⟨c2, h1, h2, h3, h4⟩ := this
    refine ⟨c2, ?_, h2, ?_, ?_⟩
    · rw [addAll, hadd]
      exact h1
    · simp at h3 ⊢
      omega
    · intro i b hib
      apply h4
      rwa [List.append_assoc, List.singleton_append]

/-- Claim C8 (amended): on the arena-variant composite, `addChild` asserts
the child count is below the fixed fan-out of 7 and asserts the signed
offset `p = &child - this` is below 65535 — there is no lower bound, so only
children at nonnegative relative offsets are faithfully addressed; for
children whose address is at or after the composite's (offset in
[0, 65535)), `getChild i` returns exactly the i-th child added. -/
theorem C8_composite (base : Nat) (addrs : List Nat)
    (hcount : addrs.length ≤ k_MaxChildrenPerComposite)
    (hoff : ∀ a ∈ addrs, base ≤ a ∧ (a : Int) - (base : Int) < 65535) :
    (∃ c2, addAll addrs { base := base } = some c2
      ∧ c2.m_Children.length = addrs.length
      ∧ ∀ i a, addrs.get? i = some a → c2.getChild i = some a)
    ∧ (∀ c : Composite, ¬ c.m_Children.length < k_MaxChildrenPerComposite →
        ∀ a, c.addChild a = none)
    ∧ (∀ (c : Composite) (a : Nat), ¬ ((a : Int) - (c.base : Int) < 65535) →
        c.addChild a = none) := by
  refine ⟨?_, ?_, ?_⟩
  · have := addAll_ok addrs { base := base } []
      rfl (by intro i a h; simp at h) (by simpa using hcount) hoff
    obtain ⟨c2, h1, _, h3, h4⟩ := this
    exact ⟨c2, h1, by simpa using h3, by simpa using h4⟩
  · intro c hc a
    simp [Composite.addChild, hc]
  · intro c a h
    unfold Composite.addChild
    split <;> simp [h]

/-- Witness for C8: two children at addresses 1100 and 1200 added to a
composite at address 1000 are retrieved exactly by getChild. -/
theorem C8_composite_witness :
    [1100, 1200].length ≤ k_MaxChildrenPerComposite
    ∧ ∃ c2, addAll [1100, 1200] { base := 1000 } = some c2
        ∧ c2.m_Children.length = 2
        ∧ c2.getChild 0 = some 1100 ∧ c2.getChild 1 = some 1200 := by
  refine ⟨by decide, ?_⟩
  obtain ⟨c2, h1, h2, h3⟩ := (C8_composite 1000 [1100, 1200] (by decide)
    (by decide)).1
  exact ⟨c2, h1, h2, h3 0 1100 rfl, h3 1 1200 rfl⟩

/-- Counterexample to C8 as stated: a child whose address (99000) lies before
the composite's own address (100000) has relative offset -1000, which does not
fit the 16-bit width; `ASSERT(p < 65535)` nevertheless passes, the uint16 cast
wraps the offset to 64536, and `getChild 0` yields address 164536 — not the
child that was added. -/
theorem C8_counterexample :
    negComposite.addChild 99000
      = some { base := 100000, m_Children := [64536] }
    ∧ ((negComposite.addChild 99000).bind fun c => c.getChild 0) = some 164536
    ∧ (99000 : Int) - (100000 : Int) < 0
    ∧ (164536 : Nat) ≠ 99000 := by
  exact ⟨by decide, by decide, by decide, by decide⟩

end bt3

namespace bt2

/-- Claim C9 (amended): `teardown()` asserts the bound task's status is not
running before destroying it, and succeeds (destroying the task) otherwise;
however `~Behavior()` first resets the status to invalid and only then calls
teardown, so destroying a Behavior handle whose status is running does NOT
trip the assertion: the destructor always succeeds and destroys the bound
task regardless of a running status. -/
theorem C9_teardown (b : Behavior) :
    (∀ t, b.m_pTask = some t → b.m_eStatus = Status.running → b.teardown = none)
    ∧ (∀ t, b.m_pTask = some t → b.m_eStatus ≠ Status.running →
        b.teardown = some ({ b with m_pTask := none }, some t))
    ∧ b.dtor = some ({ b with m_pTask := none, m_eStatus := Status.invalid },
        b.m_pTask) := by
  refine ⟨?_, ?_, ?_⟩
  · intro t ht hs
    simp [Behavior.teardown, ht, hs]
  · intro t ht hs
    simp [Behavior.teardown, ht, hs]
  · cases ht : b.m_pTask with
    | none => simp [Behavior.dtor, Behavior.teardown, ht]
    | some t => simp [Behavior.dtor, Behavior.teardown, ht]

/-- Witness for C9: a bound running task makes teardown assert; a bound
non-running task is destroyed. -/
theorem C9_teardown_witness :
    Behavior.teardown { m_pTask := some 0, m_eStatus := Status.running } = none
    ∧ Behavior.teardown { m_pTask := some 1, m_eStatus := Status.success }
        = some ({ m_pTask := none, m_eStatus := Status.success }, some 1) := by
  constructor
  · exact (C9_teardown _).1 0 rfl rfl
  · exact (C9_teardown _).2.1 1 rfl (by decide)

/-- Counterexample to C9 as stated: destroying a Behavior handle whose status
is running does not trip the assert — the destructor resets the status to
invalid first, then teardown succeeds and the running task is destroyed. -/
theorem C9_counterexample :
    Behavior.dtor { m_pTask := some 0, m_eStatus := Status.running }
      = some ({ m_pTask := none, m_eStatus := Status.invalid }, some 0) := by
  decide

end bt2

namespace bt4

theorem findB_putB_self (l : List (Nat × BData)) (i : Nat) (d0 d : BData)
    (h : findB l i = some d0) : findB (putB l i d) i = some d := by
  induction l with
  | nil => simp [findB] at h
  | cons pr rest ih =>
    obtain ⟨k, dk⟩ := pr
    by_cases hik : i = k
    · simp [findB, putB, hik]
    · simp only [findB, putB, if_neg hik] at h ⊢
      exact ih h

theorem findB_putB_ne (l : List (Nat × BData)) (i j : Nat) (d : BData)
    (h : j ≠ i) : findB (putB l i d) j = findB l j := by
  induction l with
  | nil => simp [findB, putB]
  | cons pr rest ih =>
    obtain ⟨k, dk⟩ := pr
    by_cases hik : i = k
    · subst hik
      simp [findB, putB, if_neg h]
    · simp only [putB, if_neg hik]
      by_cases hjk : j = k <;> simp [findB, hjk, ih]

theorem isMockKind_eq (k : BKind) (h : isMockKind k = true) :
    ∃ r, k = BKind.mock r := by
  cases k with
  | mock r => exact ⟨r, rfl⟩
  | seq c => simp [isMockKind] at h

theorem tickMockData_fields (d : BData) (ret : Status) :
    (tickMockData d ret).kind = d.kind
    ∧ (tickMockData d ret).m_Observer = d.m_Observer
    ∧ (tickMockData d ret).m_iUpdateCalled = d.m_iUpdateCalled + 1
    ∧ (tickMockData d ret).m_eStatus = ret := by
  unfold tickMockData
  by_cases h1 : d.m_eStatus = Status.invalid <;>
    by_cases h2 : ret = Status.running <;>
    simp [h1, h2]

theorem step_free (f : Nat) (st : Sched) (b : Nat) (rest : List (Option Nat))
    (d : BData) (ret : Status)
    (hq : st.m_Behaviors = some b :: rest)
    (hfind : findB st.store b = some d)
    (hkind : d.kind = BKind.mock ret)
    (hobs : d.m_Observer = none) :
    step f st = some ({ store := putB st.store b (tickMockData d ret),
                        m_Behaviors := rest ++ [some b],
                        log := st.log }, true) := by
  have h1 : tickBehavior { st with m_Behaviors := rest } b
      = some (setB { st with m_Behaviors := rest } b (tickMockData d ret)) := by
    unfold tickBehavior
    simp [hfind, hkind]
  have h2 : findB (setB { st with m_Behaviors := rest } b (tickMockData d ret)).store b
      = some (tickMockData d ret) := by
    simpa [setB] using findB_putB_self st.store b d (tickMockData d ret) hfind
  have h3 : (tickMockData d ret).m_Observer = none :=
    ((tickMockData_fields d ret).2.1).trans hobs
  simp only [step, hq, h1, h2]
  by_cases h4 : (tickMockData d ret).m_eStatus = Status.running <;>
    simp [h3, h4, setB]

theorem runSteps_free (front : List Nat) :
    ∀ (fuel : Nat) (st : Sched) (back : List (Option Nat)),
    front.length + 1 ≤ fuel →
    st.m_Behaviors = front.map some ++ none :: back →
    (∀ b ∈ front, freeMockB st b = true) →
    ∃ st2, runSteps fuel st = some st2
      ∧ st2.m_Behaviors = back ++ front.map some
      ∧ st2.log = st.log
      ∧ (∀ x, updCount st2 x = updCount st x + front.count x)
      ∧ (∀ x, kindObs st2 x = kindObs st x) := by
  induction front with
  | nil =>
    intro fuel st back hfuel hq hfree
    cases fuel with
    | zero => simp at hfuel
    | succ f =>
      have hq2 : st.m_Behaviors = none :: back := by simpa using hq
      have hstep : step f st = some ({ st with m_Behaviors := back }, false) := by
        simp only [step, hq2]
      refine ⟨{ st with m_Behaviors := back }, ?_, by simp, rfl, ?_, ?_⟩
      · simp only [runSteps, hstep]
      · intro x
        simp [updCount]
      · intro x
        rfl
  | cons b front2 ih =>
    intro fuel st back hfuel hq hfree
    cases fuel with
    | zero => simp at hfuel
    | succ f =>
      have hfb := hfree b (by simp)
      obtain ⟨d, hfind, ret, hkind, hobs⟩ :
          ∃ d, findB st.store b = some d
            ∧ ∃ ret, d.kind = BKind.mock ret ∧ d.m_Observer = none := by
        unfold freeMockB at hfb
        cases hf : findB st.store b with
        | none => rw [hf] at hfb; simp at hfb
        | some dd =>
          rw [hf] at hfb
          simp only [Bool.and_eq_true, Option.isNone_iff_eq_none] at hfb
          obtain ⟨hk, ho⟩ := hfb
          obtain ⟨r, hr⟩ := isMockKind_eq _ hk
          exact ⟨dd, rfl, r, hr, ho⟩
      have hq2 : st.m_Behaviors = some b :: (front2.map some ++ none :: back) := by
        simpa using hq
      have hstep := step_free f st b (front2.map some ++ none :: back) d ret
        hq2 hfind hkind hobs
      set st1 : Sched := { store := putB st.store b (tickMockData d ret),
                           m_Behaviors := (front2.map some ++ none :: back) ++ [some b],
                           log := st.log } with hst1
      have hfind1 : findB st1.store b = some (tickMockData d ret) := by
        rw [hst1]
        exact findB_putB_self _ _ _ _ hfind
      have hfind1n : ∀ c, c ≠ b → findB st1.store c = findB st.store c := by
        intro c hc
        rw [hst1]
        exact findB_putB_ne _ _ _ _ hc
      have hq1 : st1.m_Behaviors = front2.map some ++ none :: (back ++ [some b]) := by
        rw [hst1]
        simp
      have hfree1 : ∀ c ∈ front2, freeMockB st1 c = true := by
        intro c hc
        by_cases hcb : c = b
        · subst hcb
          unfold freeMockB
          rw [hfind1]
          simp [Bool.and_eq_true, Option.isNone_iff_eq_none,
            (tickMockData_fields d ret).1, (tickMockData_fields d ret).2.1,
            hkind, hobs, isMockKind]
        · unfold freeMockB
          rw [hfind1n c hcb]
          have h3 := hfree c (by simp [hc])
          unfold freeMockB at h3
          exact h3
      have hfuel2 : front2.length + 1 ≤ f := by
        simp at hfuel
        omega
      obtain ⟨st2, hrun, hqf, hlogf, hupdf, hkof⟩ :=
        ih f st1 (back ++ [some b]) hfuel2 hq1 hfree1
      refine ⟨st2, ?_, ?_, ?_, ?_, ?_⟩
      · simp only [runSteps, hstep]
        exact hrun
      · rw [hqf]
        simp
      · rw [hlogf, hst1]
      · intro x
        rw [hupdf x]
        have hcnt : (b :: front2).count x = front2.count x + (if x = b then 1 else 0) := by
          by_cases hxb : x = b <;> simp [List.count_cons, hxb]
        have hupd1 : updCount st1 x = updCount st x + (if x = b then 1 else 0) := by
          by_cases hxb : x = b
          · subst hxb
            unfold updCount
            rw [hfind1, hfind]
            simp [(tickMockData_fields d ret).2.2.1]
          · unfold updCount
            rw [hfind1n x hxb]
            simp [hxb]
        rw [hupd1, hcnt]
        omega
      · intro x
        rw [hkof x]
        by_cases hxb : x = b
        · subst hxb
          unfold kindObs
          rw [hfind1, hfind]
          simp [(tickMockData_fields d ret).1, (tickMockData_fields d ret).2.1]
        · unfold kindObs
          rw [hfind1n x hxb]

theorem all_some_eq_map (l : List (Option Nat)) (h : ∀ x ∈ l, x ≠ none) :
    l = (l.filterMap (fun x => x)).map some := by
  induction l with
  | nil => rfl
  | cons x t ih =>
    have hx := h x (by simp)
    cases x with
    | none => exact absurd rfl hx
    | some a =>
      have ht : ∀ y ∈ t, y ≠ none := fun y hy => h y (by simp [hy])
      calc some a :: t = some a :: (t.filterMap (fun x => x)).map some := by
            rw [← ih ht]
        _ = ((some a :: t).filterMap (fun x => x)).map some := by simp

/-- Claim C4: within one `BehaviorTree::tick()` call, any given behavior is
ticked at most once.  Over a queue of observer-free behaviors with no pending
sentinel, one tick() call increments each behavior's update-count by exactly
its queue multiplicity — so by exactly 1 for each queued behavior and at most
1 per behavior whenever the queue is duplicate-free, regardless of queue size
— and leaves the queue as it was. -/
theorem C4_tick_once (st : Sched)
    (hfree : ∀ b ∈ queueIds st, freeMockB st b = true)
    (hsent : ∀ x ∈ st.m_Behaviors, x ≠ none) :
    ∃ st2, tick (st.m_Behaviors.length + 1) st = some st2
      ∧ st2.m_Behaviors = st.m_Behaviors
      ∧ (∀ b, updCount st2 b = updCount st b + (queueIds st).count b)
      ∧ ((queueIds st).Nodup → ∀ b, updCount st2 b ≤ updCount st b + 1) := by
  have hform : st.m_Behaviors = (queueIds st).map some :=
    all_some_eq_map st.m_Behaviors hsent
  have hlen : st.m_Behaviors.length = (queueIds st).length := by
    rw [hform, List.length_map]
  have hq : ({ st with m_Behaviors := st.m_Behaviors ++ [none] } : Sched).m_Behaviors
      = (queueIds st).map some ++ none :: [] := by
    show st.m_Behaviors ++ [none] = (queueIds st).map some ++ none :: []
    rw [hform]
  have hfree2 : ∀ b ∈ queueIds st,
      freeMockB { st with m_Behaviors := st.m_Behaviors ++ [none] } b = true :=
    fun b hb => hfree b hb
  obtain ⟨st2, hrun, hq2, _, hupd2, _⟩ :=
    runSteps_free (queueIds st) (st.m_Behaviors.length + 1)
      { st with m_Behaviors := st.m_Behaviors ++ [none] } []
      (by omega) hq hfree2
  refine ⟨st2, hrun, ?_, fun b => hupd2 b, ?_⟩
  · rw [hq2]
    simpa using hform.symm
  · intro hnd b
    have hc : (queueIds st).count b ≤ 1 :=
      List.nodup_iff_count_le_one.mp hnd b
    have h4 := hupd2 b
    have heq : updCount { st with m_Behaviors := st.m_Behaviors ++ [none] } b
        = updCount st b := rfl
    rw [heq] at h4
    omega

/-- Witness for C4: the scenario state — behavior 0 started with no observer
into a scheduler with 3 other queued running behaviors; one tick() increments
behavior 0's update-count by exactly 1 and restores the queue. -/
theorem C4_tick_once_witness :
    (∀ b ∈ queueIds schedC4, freeMockB schedC4 b = true)
    ∧ (∀ x ∈ schedC4.m_Behaviors, x ≠ none)
    ∧ ∃ st2, tick 5 schedC4 = some st2
        ∧ st2.m_Behaviors = schedC4.m_Behaviors
        ∧ updCount st2 0 = updCount schedC4 0 + 1 := by
  refine ⟨by decide, by decide, ?_⟩
  obtain ⟨st2, h1, h2, h3, _⟩ := C4_tick_once schedC4 (by decide) (by decide)
  exact ⟨st2, h1, h2, (h3 0).trans (by decide)⟩

theorem findB_mem (l : List (Nat × BData)) (i : Nat) (d : BData)
    (h : findB l i = some d) : (i, d) ∈ l := by
  induction l with
  | nil => simp [findB] at h
  | cons pr rest ih =>
    obtain ⟨k, dk⟩ := pr
    by_cases hik : i = k
    · subst hik
      simp [findB] at h
      subst h
      exact List.mem_cons_self _ _
    · simp only [findB, if_neg hik] at h
      exact List.mem_cons_of_mem _ (ih h)

theorem obsFree_putB : ∀ (store : List (Nat × BData)) (i : Nat) (d : BData),
    obsFreeStore store → isMockKind d.kind = true → d.m_Observer = none →
    obsFreeStore (putB store i d)
  | [], _, _, _, _, _ => by intro pr hpr; simp [putB] at hpr
  | (k, dk) :: rest, i, d, hs, h1, h2 => by
    intro pr hpr
    by_cases hik : i = k
    · rw [putB, if_pos hik] at hpr
      rcases List.mem_cons.mp hpr with he | ht
      · subst he
        exact ⟨h1, h2⟩
      · exact hs pr (List.mem_cons_of_mem _ ht)
    · rw [putB, if_neg hik] at hpr
      rcases List.mem_cons.mp hpr with he | ht
      · subst he
        exact hs _ (List.mem_cons_self _ _)
      · exact obsFree_putB rest i d
          (fun q hq => hs q (List.mem_cons_of_mem _ hq)) h1 h2 pr ht

theorem start_inv (st : Sched) (b : Nat) (st2 : Sched)
    (h : start st b none = some st2) (hi : InvFree st) (hb : b ∉ queueIds st) :
    InvFree st2 := by
  unfold start at h
  cases hf : findB st.store b with
  | none => rw [hf] at h; simp at h
  | some d =>
    rw [hf] at h
    have hst2 := Option.some.inj h
    subst hst2
    have hd := hi.1 _ (findB_mem _ _ _ hf)
    constructor
    · exact obsFree_putB _ _ _ hi.1 hd.1 hd.2
    · show ((some b :: st.m_Behaviors).filterMap (fun x => x)).Nodup
      simp only [List.filterMap_cons]
      exact List.nodup_cons.mpr ⟨hb, hi.2⟩

theorem stop_inv (fuel : Nat) (st : Sched) (b : Nat) (r : Status) (st2 : Sched)
    (h : stopB fuel st b r = some st2) (hi : InvFree st) : InvFree st2 := by
  cases fuel with
  | zero => simp [stopB] at h
  | succ f =>
    simp only [stopB] at h
    by_cases hr : r = Status.running
    · rw [if_pos hr] at h
      simp at h
    · rw [if_neg hr] at h
      cases hf : findB st.store b with
      | none => rw [hf] at h; simp at h
      | some d =>
        rw [hf] at h
        have hd := hi.1 _ (findB_mem _ _ _ hf)
        have hobs : d.m_Observer = none := hd.2
        have hkind : isMockKind d.kind = true := hd.1
        simp only [hobs] at h
        have hst2 := Option.some.inj h
        subst hst2
        constructor
        · exact obsFree_putB _ _ _ hi.1 (by simpa using hkind) (by simpa using hobs)
        · exact hi.2

theorem step_inv (fuel : Nat) (st : Sched) (st2 : Sched) (cont : Bool)
    (h : step fuel st = some (st2, cont)) (hi : InvFree st) : InvFree st2 := by
  cases hq : st.m_Behaviors with
  | nil => simp [step, hq] at h
  | cons q0 rest =>
    cases q0 with
    | none =>
      simp only [step, hq] at h
      have hst2 : ({ st with m_Behaviors := rest } : Sched) = st2 := by
        simpa using congrArg Prod.fst (Option.some.inj h)
      subst hst2
      refine ⟨hi.1, ?_⟩
      have h2 := hi.2
      show ((rest).filterMap (fun x => x)).Nodup
      have : queueIds st = rest.filterMap (fun x => x) := by
        unfold queueIds
        rw [hq]
        simp [List.filterMap_cons]
      rwa [this] at h2
    | some b =>
      cases hf : findB st.store b with
      | none => simp [step, hq, tickBehavior, hf] at h
      | some d =>
        have hd := hi.1 _ (findB_mem _ _ _ hf)
        obtain ⟨ret, hret⟩ := isMockKind_eq _ hd.1
        have hstep := step_free fuel st b rest d ret hq hf hret hd.2
        rw [hstep] at h
        have hpair := Option.some.inj h
        have hst2 : ({ store := putB st.store b (tickMockData d ret),
                       m_Behaviors := rest ++ [some b],
                       log := st.log } : Sched) = st2 :=
          congrArg Prod.fst hpair
        subst hst2
        constructor
        · exact obsFree_putB _ _ _ hi.1
            (by rw [(tickMockData_fields d ret).1]; exact hd.1)
            (by rw [(tickMockData_fields d ret).2.1]; exact hd.2)
        · show ((rest ++ [some b]).filterMap (fun x => x)).Nodup
          have hq2 : queueIds st = b :: rest.filterMap (fun x => x) := by
            unfold queueIds
            rw [hq]
            simp [List.filterMap_cons]
          have h2 := hi.2
          rw [hq2] at h2
          have hperm := List.perm_append_singleton b (rest.filterMap (fun x => x))
          have := hperm.nodup_iff.mpr h2
          simpa using this

theorem runSteps_inv : ∀ (fuel : Nat) (st st2 : Sched),
    runSteps fuel st = some st2 → InvFree st → InvFree st2
  | 0, st, st2, h, _ => by simp [runSteps] at h
  | fuel + 1, st, st2, h, hi => by
    simp only [runSteps] at h
    cases hs : step fuel st with
    | none => rw [hs] at h; simp at h
    | some pr =>
      obtain ⟨st1, cont⟩ := pr
      rw [hs] at h
      cases cont with
      | true =>
        exact runSteps_inv fuel st1 st2 (by simpa using h)
          (step_inv _ _ _ _ hs hi)
      | false =>
        have he : st1 = st2 := by simpa using h
        subst he
        exact step_inv _ _ _ _ hs hi

theorem tick_inv (fuel : Nat) (st st2 : Sched)
    (h : tick fuel st = some st2) (hi : InvFree st) : InvFree st2 := by
  refine runSteps_inv fuel _ _ h ⟨hi.1, ?_⟩
  show ((st.m_Behaviors ++ [none]).filterMap (fun x => x)).Nodup
  have : (st.m_Behaviors ++ [none]).filterMap (fun x => x) = queueIds st := by
    unfold queueIds
    simp
  rw [this]
  exact hi.2

theorem ReachInv (st : Sched) (h : Reach st) : InvFree st := by
  induction h with
  | base store hstore =>
    exact ⟨hstore, by simp [queueIds, List.Nodup]⟩
  | start_op st b st2 hr hb hs ih => exact start_inv _ _ _ hs ih hb
  | stop_op st fuel b r st2 hr hs ih => exact stop_inv _ _ _ _ _ hs ih
  | step_op st fuel st2 cont hr hs ih => exact step_inv _ _ _ _ hs ih
  | tick_op st fuel st2 hr hs ih => exact tick_inv _ _ _ hs ih

theorem start_log (st : Sched) (bh : Nat) (obs : Option Nat) (st2 : Sched)
    (h : start st bh obs = some st2) : st2.log = st.log := by
  unfold start at h
  cases hf : findB st.store bh with
  | none => rw [hf] at h; simp at h
  | some d =>
    rw [hf] at h
    have he := Option.some.inj h
    subst he
    rfl

theorem cascade_log_mono : ∀ fuel : Nat,
    (∀ st b r st2, stopB fuel st b r = some st2 → ∃ tl, st2.log = st.log ++ tl)
    ∧ (∀ st p st2, onChildComplete fuel st p = some st2 →
        ∃ tl, st2.log = st.log ++ tl) := by
  intro fuel
  induction fuel with
  | zero =>
    constructor
    · intro st b r st2 h
      simp [stopB] at h
    · intro st p st2 h
      simp [onChildComplete] at h
  | succ f ih =>
    constructor
    · intro st b r st2 h
      simp only [stopB] at h
      by_cases hr : r = Status.running
      · rw [if_pos hr] at h
        simp at h
      · rw [if_neg hr] at h
        cases hf : findB st.store b with
        | none => rw [hf] at h; simp at h
        | some d =>
          rw [hf] at h
          cases ho : d.m_Observer with
          | none =>
            simp only [ho] at h
            have he := Option.some.inj h
            subst he
            exact ⟨[], by simp [setB]⟩
          | some p =>
            simp only [ho] at h
            obtain ⟨tl, htl⟩ := ih.2 _ _ _ h
            refine ⟨(b, r) :: tl, ?_⟩
            rw [htl]
            simp [setB]
    · intro st p st2 h
      simp only [onChildComplete] at h
      cases hf : findB st.store p with
      | none => rw [hf] at h; simp at h
      | some d =>
        simp only [hf] at h
        cases hk : d.kind with
        | mock ret => simp only [hk] at h; simp at h
        | seq children =>
          simp only [hk] at h
          cases hc : children.get? d.m_Current with
          | none => simp only [hc] at h; simp at h
          | some c =>
            simp only [hc] at h
            cases hfc : findB st.store c with
            | none => simp only [hfc] at h; simp at h
            | some cd =>
              simp only [hfc] at h
              by_cases hcf : cd.m_eStatus = Status.failure
              · rw [if_pos hcf] at h
                exact ih.1 _ _ _ _ h
              · rw [if_neg hcf] at h
                by_cases hcs : cd.m_eStatus = Status.success
                · rw [if_neg (by simp [hcs])] at h
                  by_cases hend : d.m_Current + 1 = children.length
                  · rw [if_pos hend] at h
                    obtain ⟨tl, htl⟩ := ih.1 _ _ _ _ h
                    exact ⟨tl, by rw [htl]; rfl⟩
                  · rw [if_neg hend] at h
                    cases hn : children.get? (d.m_Current + 1) with
                    | none => rw [hn] at h; simp at h
                    | some cnext =>
                      rw [hn] at h
                      have hl := start_log _ _ _ _ h
                      exact ⟨[], by rw [hl]; simp [setB]⟩
                · rw [if_pos hcs] at h
                  simp at h

/-- Claim C7: `BehaviorTree::stop` asserts the result is not running (a
running result fails), out-of-band assigns the result as the behavior's
status, and synchronously invokes the behavior's observer with that result
exactly when one is attached: with no observer the state change is the status
assignment alone and nothing is invoked; with an observer the invocation
(behavior, result) is logged immediately, before any cascade effects. -/
theorem C7_stop (fuel : Nat) (st : Sched) (b : Nat) (d : BData) (r : Status)
    (hfind : findB st.store b = some d) (hr : r ≠ Status.running) :
    stopB (fuel + 1) st b Status.running = none
    ∧ (d.m_Observer = none →
        stopB (fuel + 1) st b r = some (setB st b { d with m_eStatus := r })
        ∧ (setB st b { d with m_eStatus := r }).log = st.log
        ∧ findB (setB st b { d with m_eStatus := r }).store b
            = some { d with m_eStatus := r })
    ∧ (∀ p, d.m_Observer = some p → ∀ st2, stopB (fuel + 1) st b r = some st2 →
        ∃ tl, st2.log = st.log ++ (b, r) :: tl) := by
  refine ⟨?_, ?_, ?_⟩
  · simp [stopB]
  · intro ho
    refine ⟨?_, rfl, ?_⟩
    · simp only [stopB, if_neg hr, hfind, ho]
    · exact findB_putB_self _ _ _ _ hfind
  · intro p ho st2 h
    simp only [stopB, if_neg hr, hfind, ho] at h
    obtain ⟨tl, htl⟩ := (cascade_log_mono fuel).2 _ _ _ h
    refine ⟨tl, ?_⟩
    rw [htl]
    simp [setB]

/-- Witness for C7: stopping the observed child 0 of sequence 1 with failure
logs the observer invocation (0, failure) and asserts on a running result. -/
theorem C7_stop_witness :
    findB schedC7.store 0
      = some { kind := BKind.mock Status.running, m_eStatus := Status.failure,
               m_Observer := some 1 }
    ∧ Status.failure ≠ Status.running
    ∧ stopB 3 schedC7 0 Status.running = none
    ∧ ∃ st2, stopB 3 schedC7 0 Status.failure = some st2
        ∧ ∃ tl, st2.log = (0, Status.failure) :: tl := by
  have hfind : findB schedC7.store 0
      = some { kind := BKind.mock Status.running, m_eStatus := Status.failure,
               m_Observer := some 1 } := by decide
  have h := C7_stop 2 schedC7 0
    { kind := BKind.mock Status.running, m_eStatus := Status.failure,
      m_Observer := some 1 } Status.failure hfind (by decide)
  refine ⟨hfind, by decide, h.1, ?_⟩
  cases hs : stopB 3 schedC7 0 Status.failure with
  | none => exact absurd hs (by decide)
  | some st2 =>
    obtain ⟨tl, htl⟩ := h.2.2 1 rfl st2 hs
    exact ⟨st2, rfl, tl, by simpa using htl⟩

theorem counts_putB (st1 st : Sched) (b : Nat) (d0 d : BData)
    (hstore : st1.store = putB st.store b d)
    (hf : findB st.store b = some d0)
    (h1 : d.m_iUpdateCalled = d0.m_iUpdateCalled)
    (h2 : d.m_iTerminateCalled = d0.m_iTerminateCalled) (x : Nat) :
    counts st1 x = counts st x := by
  unfold counts
  rw [hstore]
  by_cases hx : x = b
  · subst hx
    rw [findB_putB_self _ _ _ _ hf, hf]
    simp [h1, h2]
  · rw [findB_putB_ne _ _ _ _ hx]

theorem counts_eq_updCount (st1 st2 : Sched) (x : Nat)
    (h : counts st1 x = counts st2 x) :
    updCount st1 x = updCount st2 x ∧ termCount st1 x = termCount st2 x := by
  unfold counts at h
  unfold updCount termCount
  cases h1 : findB st1.store x <;> cases h2 : findB st2.store x <;>
    rw [h1, h2] at h <;> simp_all

theorem start_counts (st : Sched) (bh : Nat) (obs : Option Nat) (st2 : Sched)
    (h : start st bh obs = some st2) :
    (∀ x, counts st2 x = counts st x)
    ∧ ∃ pre, st2.m_Behaviors = pre ++ st.m_Behaviors := by
  unfold start at h
  cases hf : findB st.store bh with
  | none => rw [hf] at h; simp at h
  | some d =>
    rw [hf] at h
    have he := Option.some.inj h
    subst he
    constructor
    · intro x
      cases obs with
      | none => exact counts_putB _ st bh d d rfl hf rfl rfl x
      | some p =>
        exact counts_putB _ st bh d { d with m_Observer := some p } rfl hf rfl rfl x
    · exact ⟨[some bh], rfl⟩

theorem cascade_counts : ∀ fuel : Nat,
    (∀ st b r st2, stopB fuel st b r = some st2 →
        (∀ x, counts st2 x = counts st x)
        ∧ ∃ pre, st2.m_Behaviors = pre ++ st.m_Behaviors)
    ∧ (∀ st p st2, onChildComplete fuel st p = some st2 →
        (∀ x, counts st2 x = counts st x)
        ∧ ∃ pre, st2.m_Behaviors = pre ++ st.m_Behaviors) := by
  intro fuel
  induction fuel with
  | zero =>
    constructor
    · intro st b r st2 h
      simp [stopB] at h
    · intro st p st2 h
      simp [onChildComplete] at h
  | succ f ih =>
    constructor
    · intro st b r st2 h
      simp only [stopB] at h
      by_cases hr : r = Status.running
      · rw [if_pos hr] at h
        simp at h
      · rw [if_neg hr] at h
        cases hf : findB st.store b with
        | none => rw [hf] at h; simp at h
        | some d =>
          rw [hf] at h
          cases ho : d.m_Observer with
          | none =>
            simp only [ho] at h
            have he := Option.some.inj h
            subst he
            exact ⟨fun x => counts_putB _ st b d
              { d with m_eStatus := r, m_Observer := none } rfl hf rfl rfl x,
              [], by simp [setB]⟩
          | some p =>
            simp only [ho] at h
            obtain ⟨hcadd, pre, hpre⟩ := ih.2 _ _ _ h
            constructor
            · intro x
              exact (hcadd x).trans (counts_putB _ st b d
                { d with m_eStatus := r, m_Observer := some p } rfl hf rfl rfl x)
            · exact ⟨pre, hpre⟩
    · intro st p st2 h
      simp only [onChildComplete] at h
      cases hf : findB st.store p with
      | none => rw [hf] at h; simp at h
      | some d =>
        simp only [hf] at h
        cases hk : d.kind with
        | mock ret => simp only [hk] at h; simp at h
        | seq children =>
          simp only [hk] at h
          cases hc : children.get? d.m_Current with
          | none => simp only [hc] at h; simp at h
          | some c =>
            simp only [hc] at h
            cases hfc : findB st.store c with
            | none => simp only [hfc] at h; simp at h
            | some cd =>
              simp only [hfc] at h
              by_cases hcf : cd.m_eStatus = Status.failure
              · rw [if_pos hcf] at h
                exact ih.1 _ _ _ _ h
              · rw [if_neg hcf] at h
                by_cases hcs : cd.m_eStatus = Status.success
                · rw [if_neg (by simp [hcs])] at h
                  by_cases hend : d.m_Current + 1 = children.length
                  · rw [if_pos hend] at h
                    obtain ⟨hcadd, pre, hpre⟩ := ih.1 _ _ _ _ h
                    constructor
                    · intro x
                      exact (hcadd x).trans (counts_putB _ st p d
                        { d with kind := BKind.seq children,
                                 m_Current := d.m_Current + 1 } rfl hf rfl rfl x)
                    · exact ⟨pre, hpre⟩
                  · rw [if_neg hend] at h
                    cases hn : children.get? (d.m_Current + 1) with
                    | none => rw [hn] at h; simp at h
                    | some cnext =>
                      rw [hn] at h
                      obtain ⟨hcadd, pre, hpre⟩ := start_counts _ _ _ _ h
                      constructor
                      · intro x
                        exact (hcadd x).trans (counts_putB _ st p d
                          { d with kind := BKind.seq children,
                                   m_Current := d.m_Current + 1 } rfl hf rfl rfl x)
                      · exact ⟨pre, hpre⟩
                · rw [if_pos hcs] at h
                  simp at h

/-- Claim C10: for a queued behavior `b` and non-running result `r`,
`stop(b, r)` changes only behavior state reachable through the status
assignment and the observer cascade: it never invokes any onTerminate hook
(no behavior's update or terminate counter changes), and it never removes `b`
— or anything else — from the queue (cascades only prepend starts), so `b`
stays queued; with no observer attached the queue is untouched and the next
`step()` ticks `b` again, bumping its update count. -/
theorem C10_stop_keeps_queued (fuel : Nat) (st : Sched) (b : Nat) (d : BData)
    (r : Status) (rest : List (Option Nat))
    (hfind : findB st.store b = some d)
    (hq : st.m_Behaviors = some b :: rest)
    (hr : r ≠ Status.running) :
    (∀ st2, stopB fuel st b r = some st2 →
        (∀ x, updCount st2 x = updCount st x ∧ termCount st2 x = termCount st x)
        ∧ (∃ pre, st2.m_Behaviors = pre ++ st.m_Behaviors)
        ∧ b ∈ queueIds st2)
    ∧ (∀ ret, d.m_Observer = none → d.kind = BKind.mock ret →
        ∃ st2, stopB (fuel + 1) st b r = some st2
          ∧ st2.m_Behaviors = st.m_Behaviors
          ∧ termCount st2 b = termCount st b
          ∧ ∃ st3, step fuel st2 = some (st3, true)
              ∧ updCount st3 b = updCount st b + 1
              ∧ b ∈ queueIds st3) := by
  constructor
  · intro st2 h
    obtain ⟨hcounts, pre, hpre⟩ := (cascade_counts fuel).1 _ _ _ _ h
    refine ⟨fun x => counts_eq_updCount _ _ x (hcounts x), ⟨pre, hpre⟩, ?_⟩
    unfold queueIds
    rw [hpre, hq]
    simp [List.filterMap_append, List.filterMap_cons]
  · intro ret ho hk
    refine ⟨setB st b { d with m_eStatus := r }, ?_, rfl, ?_, ?_⟩
    · simp only [stopB, if_neg hr, hfind, ho]
    · exact (counts_eq_updCount _ st b
        (counts_putB _ st b d { d with m_eStatus := r } rfl hfind rfl rfl b)).2
    · have hq2 : (setB st b { d with m_eStatus := r }).m_Behaviors
          = some b :: rest := hq
      have hf2 : findB (setB st b { d with m_eStatus := r }).store b
          = some { d with m_eStatus := r } := findB_putB_self _ _ _ _ hfind
      have hstep := step_free fuel (setB st b { d with m_eStatus := r }) b rest
        { d with m_eStatus := r } ret hq2 hf2 (by simpa using hk) (by simpa using ho)
      have hf3 := findB_putB_self ((setB st b { d with m_eStatus := r }).store) b
        { d with m_eStatus := r } (tickMockData { d with m_eStatus := r } ret) hf2
      refine ⟨_, hstep, ?_, ?_⟩
      · unfold updCount
        dsimp only
        rw [hf3, hfind]
        simp [(tickMockData_fields { d with m_eStatus := r } ret).2.2.1]
      · unfold queueIds
        dsimp only
        simp [List.filterMap_append, List.filterMap_cons]

/-- Witness for C10: stopping the queued observer-free running mock 0 with
success leaves the queue [0]; the next step ticks it again. -/
theorem C10_stop_keeps_queued_witness :
    findB schedC10.store 0
      = some { kind := BKind.mock Status.running, m_eStatus := Status.running }
    ∧ schedC10.m_Behaviors = [some 0]
    ∧ Status.success ≠ Status.running
    ∧ ∃ st2, stopB 2 schedC10 0 Status.success = some st2
        ∧ st2.m_Behaviors = schedC10.m_Behaviors
        ∧ ∃ st3, step 1 st2 = some (st3, true)
            ∧ updCount st3 0 = 1 ∧ 0 ∈ queueIds st3 := by
  refine ⟨by decide, by decide, by decide, ?_⟩
  obtain ⟨st2, h1, h2, _, st3, h4, h5, h6⟩ :=
    (C10_stop_keeps_queued 1 schedC10 0
      { kind := BKind.mock Status.running, m_eStatus := Status.running }
      Status.success [] (by decide) rfl (by decide)).2
      Status.running (by decide) rfl
  exact ⟨st2, h1, h2, st3, h4, h5.trans (by decide), h6⟩

end bt4

namespace bt1

/-- Witness for C1: a default mock ticked from invalid status runs
onInitialize then update, returns running, and never fires onTerminate. -/
theorem C1_tick_contract_witness :
    (Behavior.tick (instrument mockImpl) ({}, []) Status.invalid).1.2
      = [TickEvent.initEv, TickEvent.updateEv]
    ∧ (Behavior.tick (instrument mockImpl) ({}, []) Status.invalid).2
      = Status.running := by
  have h := C1_tick_contract mockImpl {} Status.invalid
  exact ⟨h.1.trans (by decide), h.2.1.trans (by decide)⟩

end bt1

namespace bt4

theorem putB_absent (l : List (Nat × BData)) (i : Nat) (d : BData)
    (h : findB l i = none) : putB l i d = l := by
  induction l with
  | nil => rfl
  | cons pr rest ih =>
    obtain ⟨k, dk⟩ := pr
    by_cases hik : i = k
    · simp [findB, hik] at h
    · simp only [findB, if_neg hik] at h
      simp [putB, if_neg hik, ih h]

theorem pendTotal_cons (k : Nat) (dk : BData) (rest : List (Nat × BData)) (x : Nat) :
    pendTotal ((k, dk) :: rest) x = (pend dk).count x + pendTotal rest x := by
  simp [pendTotal]

theorem pendTotal_putB (l : List (Nat × BData)) (i : Nat) (d0 d : BData)
    (hf : findB l i = some d0) (x : Nat) :
    pendTotal (putB l i d) x + (pend d0).count x
      = pendTotal l x + (pend d).count x := by
  induction l with
  | nil => simp [findB] at hf
  | cons pr rest ih =>
    obtain ⟨k, dk⟩ := pr
    by_cases hik : i = k
    · simp only [findB, if_pos hik] at hf
      cases hf
      simp only [putB, if_pos hik, pendTotal_cons]
      omega
    · simp only [findB, if_neg hik] at hf
      simp only [putB, if_neg hik, pendTotal_cons]
      have := ih hf
      omega

theorem frontL_some (b : Nat) (rest : List (Option Nat)) :
    ((some b :: rest).takeWhile (fun y => y.isSome)).filterMap (fun x => x)
      = b :: (rest.takeWhile (fun y => y.isSome)).filterMap (fun x => x) := by
  simp [List.takeWhile_cons]

theorem frontL_none (rest : List (Option Nat)) :
    ((none :: rest).takeWhile (fun y => y.isSome)).filterMap (fun x => x) = [] := by
  simp [List.takeWhile_cons]

theorem takeWhile_append_sentinel (q : List (Option Nat)) (x : Option Nat)
    (h : none ∈ q) :
    (q ++ [x]).takeWhile (fun y => y.isSome) = q.takeWhile (fun y => y.isSome) := by
  induction q with
  | nil => simp at h
  | cons a t ih =>
    cases a with
    | none => simp [List.takeWhile_cons]
    | some v =>
      have ht : none ∈ t := by simpa using h
      simp only [List.cons_append, List.takeWhile_cons]
      simp [ih ht]

theorem takeWhile_all_some (q : List (Option Nat)) (h : ∀ x ∈ q, x ≠ none) :
    (q ++ [none]).takeWhile (fun y => y.isSome) = q := by
  induction q with
  | nil => simp [List.takeWhile_cons]
  | cons a t ih =>
    cases a with
    | none => exact absurd rfl (h none (by simp))
    | some v =>
      have ht : ∀ x ∈ t, x ≠ none := fun x hx => h x (by simp [hx])
      simp only [List.cons_append, List.takeWhile_cons]
      simp [ih ht]

theorem EdgesOkP_of_B (st : Sched) (h : obsEdgesOkB st = true) : EdgesOkP st := by
  intro c dc hfc p hobs dp hfp hk
  have hmem := findB_mem _ _ _ hfc
  have h2 := List.all_eq_true.mp h _ hmem
  simp only [hobs] at h2
  rw [hfp] at h2
  simp [hk] at h2
  exact h2

end bt4

namespace bt4

theorem pend_mock (d : BData) (ret : Status) (hk : d.kind = BKind.mock ret) :
    pend d = [] := by
  unfold pend
  rw [hk]

theorem pend_seq_inv (d : BData) (ch : List Nat) (hk : d.kind = BKind.seq ch)
    (hs : d.m_eStatus = Status.invalid) : pend d = ch := by
  unfold pend
  rw [hk]
  simp [hs]

theorem pend_seq_run (d : BData) (ch : List Nat) (hk : d.kind = BKind.seq ch)
    (hs : d.m_eStatus ≠ Status.invalid) :
    pend d = ch.drop (d.m_Current + 1) := by
  unfold pend
  rw [hk]
  simp [hs]

theorem EdgesOkP_putB (st : Sched) (b : Nat) (d dnew : BData)
    (hf : findB st.store b = some d)
    (hobs : dnew.m_Observer = d.m_Observer)
    (hsafe : isMockKind dnew.kind = false → dnew.m_eStatus ≠ Status.invalid)
    (hE : EdgesOkP st) :
    ∀ st1 : Sched, st1.store = putB st.store b dnew → EdgesOkP st1 := by
  intro st1 hstore c dc hfc p hobsc dp hfp hk
  rw [hstore] at hfc hfp
  by_cases hcb : c = b
  · subst hcb
    rw [findB_putB_self _ _ _ _ hf] at hfc
    cases hfc
    by_cases hpb : p = c
    · subst hpb
      rw [findB_putB_self _ _ _ _ hf] at hfp
      cases hfp
      exact hsafe hk
    · rw [findB_putB_ne _ _ _ _ hpb] at hfp
      exact hE c d hf p (hobs ▸ hobsc) dp hfp hk
  · rw [findB_putB_ne _ _ _ _ hcb] at hfc
    by_cases hpb : p = b
    · subst hpb
      rw [findB_putB_self _ _ _ _ hf] at hfp
      cases hfp
      exact hsafe hk
    · rw [findB_putB_ne _ _ _ _ hpb] at hfp
      exact hE c dc hfc p hobsc dp hfp hk

theorem EdgesOkP_putB_obs (st : Sched) (c0 : Nat) (d dnew : BData)
    (hf : findB st.store c0 = some d)
    (hkind : dnew.kind = d.kind) (hstat : dnew.m_eStatus = d.m_eStatus)
    (hnewobs : ∀ p, dnew.m_Observer = some p →
        ∀ dp, findB (putB st.store c0 dnew) p = some dp →
          isMockKind dp.kind = false → dp.m_eStatus ≠ Status.invalid)
    (hE : EdgesOkP st) :
    ∀ st1 : Sched, st1.store = putB st.store c0 dnew → EdgesOkP st1 := by
  intro st1 hstore c dc hfc p hobsc dp hfp hk
  rw [hstore] at hfc hfp
  by_cases hcb : c = c0
  · subst hcb
    rw [findB_putB_self _ _ _ _ hf] at hfc
    cases hfc
    exact hnewobs p hobsc dp hfp hk
  · rw [findB_putB_ne _ _ _ _ hcb] at hfc
    by_cases hpb : p = c0
    · subst hpb
      rw [findB_putB_self _ _ _ _ hf] at hfp
      cases hfp
      rw [hkind] at hk
      rw [hstat]
      exact hE c dc hfc p hobsc d hf hk
    · rw [findB_putB_ne _ _ _ _ hpb] at hfp
      exact hE c dc hfc p hobsc dp hfp hk

theorem kind_split (d : BData) :
    (∃ ret, d.kind = BKind.mock ret) ∨ (∃ ch, d.kind = BKind.seq ch) := by
  cases d.kind with
  | mock ret => exact Or.inl ⟨ret, rfl⟩
  | seq ch => exact Or.inr ⟨ch, rfl⟩

theorem pend_le_general (d d2 : BData) (hk : d2.kind = d.kind)
    (hcur : d2.m_Current = d.m_Current) (hs : d2.m_eStatus ≠ Status.invalid)
    (x : Nat) : (pend d2).count x ≤ (pend d).count x := by
  rcases kind_split d with ⟨ret, hkk⟩ | ⟨ch, hkk⟩
  · rw [pend_mock d ret hkk, pend_mock d2 ret (hk.trans hkk)]
  · rw [pend_seq_run d2 ch (hk.trans hkk) hs]
    by_cases hsd : d.m_eStatus = Status.invalid
    · rw [pend_seq_inv d ch hkk hsd]
      exact (List.drop_sublist _ _).count_le x
    · rw [pend_seq_run d ch hkk hsd, hcur]

end bt4

namespace bt4

theorem cascade_wf : ∀ fuel : Nat,
    (∀ st b r st2, stopB fuel st b r = some st2 → r ≠ Status.invalid →
        EdgesOkP st →
        (∃ added : List Nat, st2.m_Behaviors = added.map some ++ st.m_Behaviors
          ∧ ∀ x, added.count x + pendTotal st2.store x ≤ pendTotal st.store x)
        ∧ EdgesOkP st2)
    ∧ (∀ st p st2, onChildComplete fuel st p = some st2 →
        (∃ c0 dc0, findB st.store c0 = some dc0 ∧ dc0.m_Observer = some p) →
        EdgesOkP st →
        (∃ added : List Nat, st2.m_Behaviors = added.map some ++ st.m_Behaviors
          ∧ ∀ x, added.count x + pendTotal st2.store x ≤ pendTotal st.store x)
        ∧ EdgesOkP st2) := by
  intro fuel
  induction fuel with
  | zero =>
    constructor
    · intro st b r st2 h
      simp [stopB] at h
    · intro st p st2 h
      simp [onChildComplete] at h
  | succ f ih =>
    constructor
    · intro st b r st2 h hrinv hE
      simp only [stopB] at h
      by_cases hr : r = Status.running
      · rw [if_pos hr] at h
        simp at h
      · rw [if_neg hr] at h
        cases hf : findB st.store b with
        | none => rw [hf] at h; simp at h
        | some d =>
          rw [hf] at h
          cases ho : d.m_Observer with
          | none =>
            simp only [ho] at h
            have he := Option.some.inj h
            subst he
            constructor
            · refine ⟨[], by simp [setB], ?_⟩
              intro x
              have hpt := pendTotal_putB st.store b d
                { d with m_eStatus := r, m_Observer := none } hf x
              have hle : (pend { d with m_eStatus := r, m_Observer := none }).count x
                  ≤ (pend d).count x :=
                pend_le_general d { d with m_eStatus := r, m_Observer := none }
                  rfl rfl hrinv x
              have hgoal : pendTotal (putB st.store b
                  { d with m_eStatus := r, m_Observer := none }) x
                  ≤ pendTotal st.store x := by omega
              simpa [setB] using hgoal
            · exact EdgesOkP_putB st b d { d with m_eStatus := r, m_Observer := none }
                hf (by simpa using ho.symm) (fun _ => hrinv) hE _ rfl
          | some p =>
            simp only [ho] at h
            have hedge2 : ∃ c0 dc0,
                findB (putB st.store b
                    { d with m_eStatus := r, m_Observer := some p }) c0
                  = some dc0 ∧ dc0.m_Observer = some p :=
              ⟨b, { d with m_eStatus := r, m_Observer := some p },
                findB_putB_self _ _ _ _ hf, rfl⟩
            have hE1 : EdgesOkP { setB st b
                  { d with m_eStatus := r, m_Observer := some p } with
                log := (setB st b
                  { d with m_eStatus := r, m_Observer := some p }).log ++ [(b, r)] } :=
              EdgesOkP_putB st b d { d with m_eStatus := r, m_Observer := some p }
                hf (by simpa using ho.symm) (fun _ => hrinv) hE _ rfl
            obtain ⟨⟨added, hq2, hpt2⟩, hE2⟩ := ih.2 _ _ _ h hedge2 hE1
            constructor
            · refine ⟨added, by simpa [setB] using hq2, ?_⟩
              intro x
              have hineq : added.count x + pendTotal st2.store x
                  ≤ pendTotal (putB st.store b
                    { d with m_eStatus := r, m_Observer := some p }) x := hpt2 x
              have hpt := pendTotal_putB st.store b d
                { d with m_eStatus := r, m_Observer := some p } hf x
              have hle : (pend { d with m_eStatus := r, m_Observer := some p }).count x
                  ≤ (pend d).count x :=
                pend_le_general d { d with m_eStatus := r, m_Observer := some p }
                  rfl rfl hrinv x
              omega
            · exact hE2
    · intro st p st2 h hedge hE
      simp only [onChildComplete] at h
      cases hf : findB st.store p with
      | none => rw [hf] at h; simp at h
      | some d =>
        simp only [hf] at h
        cases hk : d.kind with
        | mock ret => simp only [hk] at h; simp at h
        | seq children =>
          simp only [hk] at h
          obtain ⟨c0, dc0, hfc0, hobs0⟩ := hedge
          have hpstat : d.m_eStatus ≠ Status.invalid :=
            hE c0 dc0 hfc0 p hobs0 d hf (by simp [hk, isMockKind])
          cases hc : children.get? d.m_Current with
          | none => simp only [hc] at h; simp at h
          | some c =>
            simp only [hc] at h
            cases hfc : findB st.store c with
            | none => simp only [hfc] at h; simp at h
            | some cd =>
              simp only [hfc] at h
              by_cases hcf : cd.m_eStatus = Status.failure
              · rw [if_pos hcf] at h
                exact ih.1 _ _ _ _ h (by decide) hE
              · rw [if_neg hcf] at h
                by_cases hcs : cd.m_eStatus = Status.success
                · rw [if_neg (by simp [hcs])] at h
                  by_cases hend : d.m_Current + 1 = children.length
                  · rw [if_pos hend] at h
                    have hE1 : EdgesOkP (setB st p
                        { d with kind := BKind.seq children, m_Current := d.m_Current + 1 }) :=
                      EdgesOkP_putB st p d
                        { d with kind := BKind.seq children, m_Current := d.m_Current + 1 }
                        hf rfl (fun _ => hpstat) hE _ rfl
                    obtain ⟨⟨added, hq2, hpt2⟩, hE2⟩ := ih.1 _ _ _ _ h (by decide) hE1
                    constructor
                    · refine ⟨added, by simpa [setB] using hq2, ?_⟩
                      intro x
                      have hineq : added.count x + pendTotal st2.store x
                          ≤ pendTotal (putB st.store p
                            { d with kind := BKind.seq children, m_Current := d.m_Current + 1 }) x := hpt2 x
                      have hpt := pendTotal_putB st.store p d
                        { d with kind := BKind.seq children, m_Current := d.m_Current + 1 } hf x
                      have hle : (pend { d with kind := BKind.seq children, m_Current := d.m_Current + 1 }).count x
                          ≤ (pend d).count x := by
                        have e1 : pend { d with kind := BKind.seq children, m_Current := d.m_Current + 1 }
                            = children.drop (d.m_Current + 1 + 1) :=
                          pend_seq_run _ children rfl hpstat
                        have e2 : pend d = children.drop (d.m_Current + 1) :=
                          pend_seq_run d children hk hpstat
                        rw [e1, e2, ← List.drop_drop]
                        exact (List.drop_sublist _ _).count_le x
                      omega
                    · exact hE2
                  · rw [if_neg hend] at h
                    cases hn : children.get? (d.m_Current + 1) with
                    | none => simp only [hn] at h; simp at h
                    | some cnext =>
                      simp only [hn] at h
                      unfold start at h
                      cases hfcn : findB (setB st p
                          { d with kind := BKind.seq children, m_Current := d.m_Current + 1 }).store cnext with
                      | none => simp only [hfcn] at h; simp at h
                      | some dcn =>
                        simp only [hfcn] at h
                        have he := Option.some.inj h
                        subst he
                        have hpd : pend d = children.drop (d.m_Current + 1) :=
                          pend_seq_run d children hk hpstat
                        have hpDc : pend { d with kind := BKind.seq children, m_Current := d.m_Current + 1 }
                            = children.drop (d.m_Current + 1 + 1) :=
                          pend_seq_run _ children rfl hpstat
                        have hdropeq : children.drop (d.m_Current + 1)
                            = cnext :: children.drop (d.m_Current + 1 + 1) := by
                          rcases List.get?_eq_some.mp hn with ⟨hlt, hg⟩
                          rw [List.drop_eq_get_cons hlt, hg]
                        have hE1 : EdgesOkP (setB st p
                            { d with kind := BKind.seq children, m_Current := d.m_Current + 1 }) :=
                          EdgesOkP_putB st p d
                            { d with kind := BKind.seq children, m_Current := d.m_Current + 1 }
                            hf rfl (fun _ => hpstat) hE _ rfl
                        constructor
                        · refine ⟨[cnext], by simp [setB], ?_⟩
                          intro x
                          have hA : pendTotal (putB (setB st p
                                { d with kind := BKind.seq children, m_Current := d.m_Current + 1 }).store cnext
                                { dcn with m_Observer := some p }) x
                                + (pend dcn).count x
                              = pendTotal (setB st p
                                  { d with kind := BKind.seq children, m_Current := d.m_Current + 1 }).store x
                                + (pend { dcn with m_Observer := some p }).count x :=
                            pendTotal_putB _ cnext dcn _ hfcn x
                          have hB : pendTotal (putB st.store p
                                { d with kind := BKind.seq children, m_Current := d.m_Current + 1 }) x
                                + (pend d).count x
                              = pendTotal st.store x
                                + (pend { d with kind := BKind.seq children, m_Current := d.m_Current + 1 }).count x :=
                            pendTotal_putB st.store p d _ hf x
                          have hobseq : pend { dcn with m_Observer := some p }
                              = pend dcn := rfl
                          have hC : (pend d).count x
                              = (List.count x [cnext])
                                + (pend { d with kind := BKind.seq children, m_Current := d.m_Current + 1 }).count x := by
                            rw [hpd, hpDc, hdropeq]
                            by_cases hxc : x = cnext <;> simp [List.count_cons, hxc] <;> omega
                          have hgoal : (List.count x [cnext])
                                + pendTotal (putB (setB st p
                                  { d with kind := BKind.seq children, m_Current := d.m_Current + 1 }).store cnext
                                  { dcn with m_Observer := some p }) x
                              ≤ pendTotal st.store x := by
                            rw [hobseq] at hA
                            have hB2 : pendTotal (setB st p
                                  { d with kind := BKind.seq children, m_Current := d.m_Current + 1 }).store x
                                  + (pend d).count x
                                = pendTotal st.store x
                                  + (pend { d with kind := BKind.seq children, m_Current := d.m_Current + 1 }).count x := hB
                            omega
                          simpa [setB] using hgoal
                        · refine EdgesOkP_putB_obs (setB st p
                              { d with kind := BKind.seq children, m_Current := d.m_Current + 1 }) cnext dcn
                              { dcn with m_Observer := some p }
                              hfcn rfl rfl ?_ hE1 _ rfl
                          intro p2 hp2 dp hfp hkmock
                          have hp2p : p2 = p := (Option.some.inj hp2).symm
                          subst hp2p
                          by_cases hpc : p2 = cnext
                          · subst hpc
                            rw [findB_putB_self _ _ _ _ hfcn] at hfp
                            cases hfp
                            have hdcn : dcn = { d with kind := BKind.seq children, m_Current := d.m_Current + 1 } := by
                              have h2 : findB (setB st p2
                                  { d with kind := BKind.seq children, m_Current := d.m_Current + 1 }).store p2
                                  = some { d with kind := BKind.seq children, m_Current := d.m_Current + 1 } :=
                                findB_putB_self _ _ _ _ hf
                              rw [hfcn] at h2
                              exact Option.some.inj h2
                            rw [hdcn]
                            simpa using hpstat
                          · rw [findB_putB_ne _ _ _ _ hpc] at hfp
                            have h2 : findB (setB st p2
                                { d with kind := BKind.seq children, m_Current := d.m_Current + 1 }).store p2
                                = some { d with kind := BKind.seq children, m_Current := d.m_Current + 1 } :=
                              findB_putB_self _ _ _ _ hf
                            rw [hfp] at h2
                            have hdp := Option.some.inj h2
                            rw [hdp]
                            simpa using hpstat
                · rw [if_pos hcs] at h
                  simp at h

end bt4

namespace bt4

theorem putB_putB_same (l : List (Nat × BData)) (i : Nat) (d1 d2 : BData) :
    putB (putB l i d1) i d2 = putB l i d2 := by
  induction l with
  | nil => rfl
  | cons pr rest ih =>
    obtain ⟨k, dk⟩ := pr
    by_cases hik : i = k
    · simp [putB, if_pos hik]
    · simp [putB, if_neg hik, ih]

theorem putB_comm (l : List (Nat × BData)) (i j : Nat) (d1 d2 : BData)
    (hij : i ≠ j) :
    putB (putB l i d1) j d2 = putB (putB l j d2) i d1 := by
  induction l with
  | nil => rfl
  | cons pr rest ih =>
    obtain ⟨k, dk⟩ := pr
    by_cases hik : i = k
    · have hjk : ¬ j = k := fun hj => hij (hik.trans hj.symm)
      simp [putB, if_pos hik, if_neg hjk]
    · by_cases hjk : j = k
      · simp [putB, if_neg hik, if_pos hjk]
      · simp [putB, if_neg hik, if_neg hjk, ih]

theorem takeWhile_map_some_append (added : List Nat) (q : List (Option Nat)) :
    (((added.map some ++ q).takeWhile (fun y => y.isSome)).filterMap
        (fun x => x))
      = added ++ ((q.takeWhile (fun y => y.isSome)).filterMap (fun x => x)) := by
  induction added with
  | nil => simp
  | cons a t ih =>
    simp only [List.map_cons, List.cons_append, List.takeWhile_cons]
    simpa using ih

theorem takeWhile_no_none (q : List (Option Nat)) (h : ∀ x ∈ q, x ≠ none) :
    q.takeWhile (fun y => y.isSome) = q := by
  induction q with
  | nil => rfl
  | cons a t ih =>
    cases a with
    | none => exact absurd rfl (h none (by simp))
    | some v =>
      have ht : ∀ x ∈ t, x ≠ none := fun x hx => h x (by simp [hx])
      simp [List.takeWhile_cons, ih ht]

theorem frontIds_sentinel (st : Sched) :
    frontIds { st with m_Behaviors := st.m_Behaviors ++ [none] }
      = frontIds st := by
  unfold frontIds
  by_cases h : none ∈ st.m_Behaviors
  · rw [takeWhile_append_sentinel _ _ h]
  · have hn : ∀ x ∈ st.m_Behaviors, x ≠ none :=
      fun x hx he => h (he ▸ hx)
    rw [takeWhile_all_some _ hn, takeWhile_no_none _ hn]

end bt4

namespace bt4

theorem updCount_eq_of_find (st : Sched) (x : Nat) (d : BData)
    (h : findB st.store x = some d) : updCount st x = d.m_iUpdateCalled := by
  unfold updCount
  rw [h]

theorem updCount_congr (st1 st2 : Sched) (x : Nat)
    (h : findB st1.store x = findB st2.store x) :
    updCount st1 x = updCount st2 x := by
  unfold updCount
  rw [h]

theorem tickBehavior_wf (st : Sched) (b : Nat) (st1 : Sched)
    (h : tickBehavior st b = some st1) (hE : EdgesOkP st) :
    (∃ added : List Nat,
        st1.m_Behaviors = added.map some ++ st.m_Behaviors
        ∧ ∀ x, added.count x + pendTotal st1.store x = pendTotal st.store x)
    ∧ updCount st1 b = updCount st b + 1
    ∧ (∀ x, x ≠ b → updCount st1 x = updCount st x)
    ∧ EdgesOkP st1 := by
  unfold tickBehavior at h
  cases hf : findB st.store b with
  | none => rw [hf] at h; simp at h
  | some d =>
    simp only [hf] at h
    rcases kind_split d with ⟨ret, hk⟩ | ⟨children, hk⟩
    · simp only [hk] at h
      have he := Option.some.inj h
      subst he
      obtain ⟨hkind, hobs, hupd, _⟩ := tickMockData_fields d ret
      refine ⟨⟨[], rfl, ?_⟩, ?_, ?_, ?_⟩
      · intro x
        have hp := pendTotal_putB st.store b d (tickMockData d ret) hf x
        rw [pend_mock d ret hk, pend_mock _ ret (hkind.trans hk)] at hp
        simpa [setB] using hp
      · have h2 : findB (setB st b (tickMockData d ret)).store b
            = some (tickMockData d ret) := findB_putB_self _ _ _ _ hf
        rw [updCount_eq_of_find _ _ _ h2, updCount_eq_of_find _ _ _ hf, hupd]
      · intro x hxb
        exact updCount_congr _ _ _ (findB_putB_ne _ _ _ _ hxb)
      · exact EdgesOkP_putB st b d (tickMockData d ret) hf hobs
          (fun hm => by rw [hkind, hk] at hm; simp [isMockKind] at hm) hE _ rfl
    · simp only [hk] at h
      by_cases hs : d.m_eStatus = Status.invalid
      · rw [if_pos hs] at h
        cases children with
        | nil => simp at h
        | cons c0 t =>
          simp only [start] at h
          cases hfc0 : findB (setB st b
              { d with kind := BKind.seq (c0 :: t), m_Current := 0, m_iInitializeCalled := d.m_iInitializeCalled + 1 }).store
              c0 with
          | none => simp only [hfc0] at h; simp at h
          | some dc0 =>
            simp only [hfc0] at h
            by_cases hc0b : c0 = b
            · subst hc0b
              have hfb1 : findB (putB st.store c0 { d with kind := BKind.seq (c0 :: t), m_Current := 0, m_iInitializeCalled := d.m_iInitializeCalled + 1 }) c0 = some { d with kind := BKind.seq (c0 :: t), m_Current := 0, m_iInitializeCalled := d.m_iInitializeCalled + 1 } := findB_putB_self _ _ _ _ hf
              have hdc0 : dc0 = { d with kind := BKind.seq (c0 :: t), m_Current := 0, m_iInitializeCalled := d.m_iInitializeCalled + 1 } := by
                have h0 : findB (putB st.store c0 { d with kind := BKind.seq (c0 :: t), m_Current := 0, m_iInitializeCalled := d.m_iInitializeCalled + 1 }) c0 = some dc0 := hfc0
                rw [hfb1] at h0
                exact (Option.some.inj h0).symm
              subst hdc0
              have hfb2 : findB (putB (setB st c0 { d with kind := BKind.seq (c0 :: t), m_Current := 0, m_iInitializeCalled := d.m_iInitializeCalled + 1 }).store c0 { d with kind := BKind.seq (c0 :: t), m_Observer := some c0, m_Current := 0, m_iInitializeCalled := d.m_iInitializeCalled + 1 }) c0 = some { d with kind := BKind.seq (c0 :: t), m_Observer := some c0, m_Current := 0, m_iInitializeCalled := d.m_iInitializeCalled + 1 } := findB_putB_self _ _ _ _ hfb1
              simp only [hfb2] at h
              have he := Option.some.inj h
              subst he
              have hfb2P : findB (putB (putB st.store c0 { d with kind := BKind.seq (c0 :: t), m_Current := 0, m_iInitializeCalled := d.m_iInitializeCalled + 1 }) c0 { d with kind := BKind.seq (c0 :: t), m_Observer := some c0, m_Current := 0, m_iInitializeCalled := d.m_iInitializeCalled + 1 }) c0 = some { d with kind := BKind.seq (c0 :: t), m_Observer := some c0, m_Current := 0, m_iInitializeCalled := d.m_iInitializeCalled + 1 } := hfb2
              refine ⟨⟨[c0], rfl, ?_⟩, ?_, ?_, ?_⟩
              · intro x
                simp only [setB]
                have hpd : pend d = c0 :: t := pend_seq_inv d (c0 :: t) hk hs
                have hpR1 : pend { d with kind := BKind.seq (c0 :: t), m_Current := 0, m_iInitializeCalled := d.m_iInitializeCalled + 1 } = c0 :: t := pend_seq_inv _ (c0 :: t) rfl hs
                have hpR2 : pend { d with kind := BKind.seq (c0 :: t), m_Observer := some c0, m_Current := 0, m_iInitializeCalled := d.m_iInitializeCalled + 1 } = c0 :: t := pend_seq_inv _ (c0 :: t) rfl hs
                have hpF : pend (seqUpdateData { d with kind := BKind.seq (c0 :: t), m_Observer := some c0, m_Current := 0, m_iInitializeCalled := d.m_iInitializeCalled + 1 }) = t := by
                  have h0 : pend (seqUpdateData { d with kind := BKind.seq (c0 :: t), m_Observer := some c0, m_Current := 0, m_iInitializeCalled := d.m_iInitializeCalled + 1 }) = (c0 :: t).drop ((seqUpdateData { d with kind := BKind.seq (c0 :: t), m_Observer := some c0, m_Current := 0, m_iInitializeCalled := d.m_iInitializeCalled + 1 }).m_Current + 1) := pend_seq_run _ (c0 :: t) rfl (by simp [seqUpdateData])
                  simpa [seqUpdateData] using h0
                have hq1 := pendTotal_putB st.store c0 d { d with kind := BKind.seq (c0 :: t), m_Current := 0, m_iInitializeCalled := d.m_iInitializeCalled + 1 } hf x
                have hq2 := pendTotal_putB (putB st.store c0 { d with kind := BKind.seq (c0 :: t), m_Current := 0, m_iInitializeCalled := d.m_iInitializeCalled + 1 }) c0 { d with kind := BKind.seq (c0 :: t), m_Current := 0, m_iInitializeCalled := d.m_iInitializeCalled + 1 } { d with kind := BKind.seq (c0 :: t), m_Observer := some c0, m_Current := 0, m_iInitializeCalled := d.m_iInitializeCalled + 1 } hfb1 x
                have hq3 := pendTotal_putB (putB (putB st.store c0 { d with kind := BKind.seq (c0 :: t), m_Current := 0, m_iInitializeCalled := d.m_iInitializeCalled + 1 }) c0 { d with kind := BKind.seq (c0 :: t), m_Observer := some c0, m_Current := 0, m_iInitializeCalled := d.m_iInitializeCalled + 1 }) c0 { d with kind := BKind.seq (c0 :: t), m_Observer := some c0, m_Current := 0, m_iInitializeCalled := d.m_iInitializeCalled + 1 } (seqUpdateData { d with kind := BKind.seq (c0 :: t), m_Observer := some c0, m_Current := 0, m_iInitializeCalled := d.m_iInitializeCalled + 1 }) hfb2P x
                rw [hpd, hpR1] at hq1
                rw [hpR1, hpR2] at hq2
                rw [hpR2, hpF] at hq3
                have hcnt : (c0 :: t).count x = [c0].count x + t.count x := by
                  by_cases hxc : x = c0 <;> simp [List.count_cons, hxc] <;> omega
                omega
              · have hfbF : findB (putB (putB (putB st.store c0 { d with kind := BKind.seq (c0 :: t), m_Current := 0, m_iInitializeCalled := d.m_iInitializeCalled + 1 }) c0 { d with kind := BKind.seq (c0 :: t), m_Observer := some c0, m_Current := 0, m_iInitializeCalled := d.m_iInitializeCalled + 1 }) c0 (seqUpdateData { d with kind := BKind.seq (c0 :: t), m_Observer := some c0, m_Current := 0, m_iInitializeCalled := d.m_iInitializeCalled + 1 })) c0 = some (seqUpdateData { d with kind := BKind.seq (c0 :: t), m_Observer := some c0, m_Current := 0, m_iInitializeCalled := d.m_iInitializeCalled + 1 }) := findB_putB_self _ _ _ _ hfb2P
                simp only [updCount, setB, hfbF, hf]
                rfl
              · intro x hxc
                have hne : findB (putB (putB (putB st.store c0 { d with kind := BKind.seq (c0 :: t), m_Current := 0, m_iInitializeCalled := d.m_iInitializeCalled + 1 }) c0 { d with kind := BKind.seq (c0 :: t), m_Observer := some c0, m_Current := 0, m_iInitializeCalled := d.m_iInitializeCalled + 1 }) c0 (seqUpdateData { d with kind := BKind.seq (c0 :: t), m_Observer := some c0, m_Current := 0, m_iInitializeCalled := d.m_iInitializeCalled + 1 })) x = findB st.store x := by
                  rw [findB_putB_ne _ _ _ _ hxc, findB_putB_ne _ _ _ _ hxc, findB_putB_ne _ _ _ _ hxc]
                simp [updCount, setB, hne]
              · have hsame : putB (putB (putB st.store c0 { d with kind := BKind.seq (c0 :: t), m_Current := 0, m_iInitializeCalled := d.m_iInitializeCalled + 1 }) c0 { d with kind := BKind.seq (c0 :: t), m_Observer := some c0, m_Current := 0, m_iInitializeCalled := d.m_iInitializeCalled + 1 }) c0 (seqUpdateData { d with kind := BKind.seq (c0 :: t), m_Observer := some c0, m_Current := 0, m_iInitializeCalled := d.m_iInitializeCalled + 1 }) = putB st.store c0 (seqUpdateData { d with kind := BKind.seq (c0 :: t), m_Observer := some c0, m_Current := 0, m_iInitializeCalled := d.m_iInitializeCalled + 1 }) := by
                  rw [putB_putB_same, putB_putB_same]
                intro c dc hfc p hp dp hfp hm
                simp only [setB] at hfc hfp
                rw [hsame] at hfc hfp
                by_cases hpb : p = c0
                · subst hpb
                  rw [findB_putB_self _ _ _ _ hf] at hfp
                  cases hfp
                  simp [seqUpdateData]
                · rw [findB_putB_ne _ _ _ _ hpb] at hfp
                  by_cases hcb : c = c0
                  · subst hcb
                    rw [findB_putB_self _ _ _ _ hf] at hfc
                    cases hfc
                    exact absurd (Option.some.inj hp).symm hpb
                  · rw [findB_putB_ne _ _ _ _ hcb] at hfc
                    exact hE c dc hfc p hp dp hfp hm
            · have hbc0 : b ≠ c0 := fun hh => hc0b hh.symm
              have hfb1 : findB (putB st.store b { d with kind := BKind.seq (c0 :: t), m_Current := 0, m_iInitializeCalled := d.m_iInitializeCalled + 1 }) b = some { d with kind := BKind.seq (c0 :: t), m_Current := 0, m_iInitializeCalled := d.m_iInitializeCalled + 1 } := findB_putB_self _ _ _ _ hf
              have hfc0P : findB (putB st.store b { d with kind := BKind.seq (c0 :: t), m_Current := 0, m_iInitializeCalled := d.m_iInitializeCalled + 1 }) c0 = some dc0 := hfc0
              have hfc0S : findB st.store c0 = some dc0 := by
                have h0 : findB (putB st.store b { d with kind := BKind.seq (c0 :: t), m_Current := 0, m_iInitializeCalled := d.m_iInitializeCalled + 1 }) c0 = some dc0 := hfc0
                rwa [findB_putB_ne _ _ _ _ hc0b] at h0
              have hfb2 : findB (putB (setB st b { d with kind := BKind.seq (c0 :: t), m_Current := 0, m_iInitializeCalled := d.m_iInitializeCalled + 1 }).store c0 { dc0 with m_Observer := some b }) b = some { d with kind := BKind.seq (c0 :: t), m_Current := 0, m_iInitializeCalled := d.m_iInitializeCalled + 1 } := by
                show findB (putB (putB st.store b { d with kind := BKind.seq (c0 :: t), m_Current := 0, m_iInitializeCalled := d.m_iInitializeCalled + 1 }) c0 { dc0 with m_Observer := some b }) b = some { d with kind := BKind.seq (c0 :: t), m_Current := 0, m_iInitializeCalled := d.m_iInitializeCalled + 1 }
                rw [findB_putB_ne _ _ _ _ hbc0]
                exact hfb1
              simp only [hfb2] at h
              have he := Option.some.inj h
              subst he
              have hfb2P : findB (putB (putB st.store b { d with kind := BKind.seq (c0 :: t), m_Current := 0, m_iInitializeCalled := d.m_iInitializeCalled + 1 }) c0 { dc0 with m_Observer := some b }) b = some { d with kind := BKind.seq (c0 :: t), m_Current := 0, m_iInitializeCalled := d.m_iInitializeCalled + 1 } := hfb2
              refine ⟨⟨[c0], rfl, ?_⟩, ?_, ?_, ?_⟩
              · intro x
                simp only [setB]
                have hpd : pend d = c0 :: t := pend_seq_inv d (c0 :: t) hk hs
                have hpR1 : pend { d with kind := BKind.seq (c0 :: t), m_Current := 0, m_iInitializeCalled := d.m_iInitializeCalled + 1 } = c0 :: t := pend_seq_inv _ (c0 :: t) rfl hs
                have hpR2 : pend { dc0 with m_Observer := some b } = pend dc0 := rfl
                have hpF : pend (seqUpdateData { d with kind := BKind.seq (c0 :: t), m_Current := 0, m_iInitializeCalled := d.m_iInitializeCalled + 1 }) = t := by
                  have h0 : pend (seqUpdateData { d with kind := BKind.seq (c0 :: t), m_Current := 0, m_iInitializeCalled := d.m_iInitializeCalled + 1 }) = (c0 :: t).drop ((seqUpdateData { d with kind := BKind.seq (c0 :: t), m_Current := 0, m_iInitializeCalled := d.m_iInitializeCalled + 1 }).m_Current + 1) := pend_seq_run _ (c0 :: t) rfl (by simp [seqUpdateData])
                  simpa [seqUpdateData] using h0
                have hq1 := pendTotal_putB st.store b d { d with kind := BKind.seq (c0 :: t), m_Current := 0, m_iInitializeCalled := d.m_iInitializeCalled + 1 } hf x
                have hq2 := pendTotal_putB (putB st.store b { d with kind := BKind.seq (c0 :: t), m_Current := 0, m_iInitializeCalled := d.m_iInitializeCalled + 1 }) c0 dc0 { dc0 with m_Observer := some b } hfc0P x
                have hq3 := pendTotal_putB (putB (putB st.store b { d with kind := BKind.seq (c0 :: t), m_Current := 0, m_iInitializeCalled := d.m_iInitializeCalled + 1 }) c0 { dc0 with m_Observer := some b }) b { d with kind := BKind.seq (c0 :: t), m_Current := 0, m_iInitializeCalled := d.m_iInitializeCalled + 1 } (seqUpdateData { d with kind := BKind.seq (c0 :: t), m_Current := 0, m_iInitializeCalled := d.m_iInitializeCalled + 1 }) hfb2P x
                rw [hpd, hpR1] at hq1
                rw [hpR2] at hq2
                rw [hpR1, hpF] at hq3
                have hcnt : (c0 :: t).count x = [c0].count x + t.count x := by
                  by_cases hxc : x = c0 <;> simp [List.count_cons, hxc] <;> omega
                omega
              · have hfbF : findB (putB (putB (putB st.store b { d with kind := BKind.seq (c0 :: t), m_Current := 0, m_iInitializeCalled := d.m_iInitializeCalled + 1 }) c0 { dc0 with m_Observer := some b }) b (seqUpdateData { d with kind := BKind.seq (c0 :: t), m_Current := 0, m_iInitializeCalled := d.m_iInitializeCalled + 1 })) b = some (seqUpdateData { d with kind := BKind.seq (c0 :: t), m_Current := 0, m_iInitializeCalled := d.m_iInitializeCalled + 1 }) := findB_putB_self _ _ _ _ hfb2P
                simp only [updCount, setB, hfbF, hf]
                rfl
              · intro x hxb
                by_cases hxc : x = c0
                · have hfx : findB (putB (putB (putB st.store b { d with kind := BKind.seq (c0 :: t), m_Current := 0, m_iInitializeCalled := d.m_iInitializeCalled + 1 }) c0 { dc0 with m_Observer := some b }) b (seqUpdateData { d with kind := BKind.seq (c0 :: t), m_Current := 0, m_iInitializeCalled := d.m_iInitializeCalled + 1 })) x = some { dc0 with m_Observer := some b } := by
                    rw [hxc, findB_putB_ne _ _ _ _ hc0b]
                    exact findB_putB_self _ _ _ _ hfc0P
                  have hfxS : findB st.store x = some dc0 := by
                    rw [hxc]
                    exact hfc0S
                  simp [updCount, setB, hfx, hfxS]
                · have hfx : findB (putB (putB (putB st.store b { d with kind := BKind.seq (c0 :: t), m_Current := 0, m_iInitializeCalled := d.m_iInitializeCalled + 1 }) c0 { dc0 with m_Observer := some b }) b (seqUpdateData { d with kind := BKind.seq (c0 :: t), m_Current := 0, m_iInitializeCalled := d.m_iInitializeCalled + 1 })) x = findB st.store x := by
                    rw [findB_putB_ne _ _ _ _ hxb, findB_putB_ne _ _ _ _ hxc, findB_putB_ne _ _ _ _ hxb]
                  simp [updCount, setB, hfx]
              · have hEA := EdgesOkP_putB st b d (seqUpdateData { d with kind := BKind.seq (c0 :: t), m_Current := 0, m_iInitializeCalled := d.m_iInitializeCalled + 1 }) hf rfl (fun hmm => by simp [seqUpdateData]) hE
                have hA : EdgesOkP ({ st with store := putB st.store b (seqUpdateData { d with kind := BKind.seq (c0 :: t), m_Current := 0, m_iInitializeCalled := d.m_iInitializeCalled + 1 }) } : Sched) := hEA _ rfl
                have hfAc0 : findB (({ st with store := putB st.store b (seqUpdateData { d with kind := BKind.seq (c0 :: t), m_Current := 0, m_iInitializeCalled := d.m_iInitializeCalled + 1 }) } : Sched)).store c0 = some dc0 := by
                  show findB (putB st.store b (seqUpdateData { d with kind := BKind.seq (c0 :: t), m_Current := 0, m_iInitializeCalled := d.m_iInitializeCalled + 1 })) c0 = some dc0
                  rw [findB_putB_ne _ _ _ _ hc0b]
                  exact hfc0S
                refine EdgesOkP_putB_obs ({ st with store := putB st.store b (seqUpdateData { d with kind := BKind.seq (c0 :: t), m_Current := 0, m_iInitializeCalled := d.m_iInitializeCalled + 1 }) } : Sched) c0 dc0 { dc0 with m_Observer := some b } hfAc0 rfl rfl ?_ hA _ ?_
                · intro p hp dp hfp hm
                  have hpb : b = p := Option.some.inj hp
                  subst hpb
                  have hfb3 : findB (putB (putB st.store b (seqUpdateData { d with kind := BKind.seq (c0 :: t), m_Current := 0, m_iInitializeCalled := d.m_iInitializeCalled + 1 })) c0 { dc0 with m_Observer := some b }) b = some (seqUpdateData { d with kind := BKind.seq (c0 :: t), m_Current := 0, m_iInitializeCalled := d.m_iInitializeCalled + 1 }) := by
                    rw [findB_putB_ne _ _ _ _ hbc0]
                    exact findB_putB_self _ _ _ _ hf
                  rw [hfb3] at hfp
                  cases hfp
                  simp [seqUpdateData]
                · show putB (putB (putB st.store b { d with kind := BKind.seq (c0 :: t), m_Current := 0, m_iInitializeCalled := d.m_iInitializeCalled + 1 }) c0 { dc0 with m_Observer := some b }) b (seqUpdateData { d with kind := BKind.seq (c0 :: t), m_Current := 0, m_iInitializeCalled := d.m_iInitializeCalled + 1 }) = putB (putB st.store b (seqUpdateData { d with kind := BKind.seq (c0 :: t), m_Current := 0, m_iInitializeCalled := d.m_iInitializeCalled + 1 })) c0 { dc0 with m_Observer := some b }
                  rw [putB_comm _ c0 b _ _ hc0b, putB_putB_same]
      · rw [if_neg hs] at h
        have he := Option.some.inj h
        subst he
        refine ⟨⟨[], rfl, ?_⟩, ?_, ?_, ?_⟩
        · intro x
          have hq1 := pendTotal_putB st.store b d (seqUpdateData d) hf x
          have hpd : pend d = children.drop (d.m_Current + 1) :=
            pend_seq_run d children hk hs
          have hpG : pend (seqUpdateData d) = children.drop (d.m_Current + 1) :=
            pend_seq_run _ children hk (by simp [seqUpdateData])
          rw [hpd, hpG] at hq1
          have hzero : ([] : List Nat).count x = 0 := rfl
          have hgoal : pendTotal (putB st.store b (seqUpdateData d)) x
              = pendTotal st.store x := by omega
          simpa [setB] using hgoal
        · have h2 : findB (setB st b (seqUpdateData d)).store b
              = some (seqUpdateData d) := findB_putB_self _ _ _ _ hf
          rw [updCount_eq_of_find _ _ _ h2, updCount_eq_of_find _ _ _ hf]
          rfl
        · intro x hxb
          exact updCount_congr _ _ _ (findB_putB_ne _ _ _ _ hxb)
        · exact EdgesOkP_putB st b d (seqUpdateData d) hf rfl
            (fun _ => by simp [seqUpdateData]) hE _ rfl


theorem frontIds_prepend (s2 s1 : Sched) (added : List Nat)
    (hq : s2.m_Behaviors = added.map some ++ s1.m_Behaviors) (x : Nat) :
    (frontIds s2).count x = added.count x + (frontIds s1).count x := by
  unfold frontIds
  rw [hq, takeWhile_map_some_append]
  simp [List.count_append]

theorem frontIds_back (s1 : Sched) (y : Option Nat) (hs : none ∈ s1.m_Behaviors) :
    frontIds { s1 with m_Behaviors := s1.m_Behaviors ++ [y] } = frontIds s1 := by
  unfold frontIds
  dsimp only
  rw [takeWhile_append_sentinel _ _ hs]

theorem tick_step_mid (st0 st : Sched) (b : Nat) (rest : List (Option Nat))
    (st1 : Sched)
    (hq : st.m_Behaviors = some b :: rest)
    (htb : tickBehavior { st with m_Behaviors := rest } b = some st1)
    (hinv : TickInv st0 st) : TickInv st0 st1 := by
  obtain ⟨h1, h2, h3, h4, h5, h6⟩ := hinv
  obtain ⟨⟨added, hqAdd, hptAdd⟩, hub, hune, hE1⟩ :=
    tickBehavior_wf { st with m_Behaviors := rest } b st1 htb h6
  have hsent : none ∈ rest := by
    have h0 : none ∈ some b :: rest := hq ▸ h5
    rcases List.mem_cons.mp h0 with hc | hc
    · exact absurd hc (by simp)
    · exact hc
  have hfrb : ∀ x, (frontIds st).count x
      = [b].count x + (frontIds ({ st with m_Behaviors := rest } : Sched)).count x :=
    fun x => frontIds_prepend st _ [b] (by rw [hq]; rfl) x
  have hfr1 : ∀ x, (frontIds st1).count x
      = added.count x + (frontIds ({ st with m_Behaviors := rest } : Sched)).count x :=
    fun x => frontIds_prepend st1 _ added hqAdd x
  have hus : ∀ x, updCount ({ st with m_Behaviors := rest } : Sched) x = updCount st x :=
    fun x => rfl
  have hpts : ∀ x, pendTotal ({ st with m_Behaviors := rest } : Sched).store x
      = pendTotal st.store x := fun x => rfl
  have hoccst : ∀ x, occCount st x = (frontIds st).count x + pendTotal st.store x :=
    fun x => rfl
  have hocc1 : ∀ x, occCount st1 x = (frontIds st1).count x + pendTotal st1.store x :=
    fun x => rfl
  have hcntb : ([b] : List Nat).count b = 1 := by simp
  have hoccb : occCount st b ≤ 1 := h3 b
  have hfrRb : (frontIds ({ st with m_Behaviors := rest } : Sched)).count b = 0
      ∧ pendTotal st.store b = 0 := by
    have e1 := hoccst b
    have e2 := hfrb b
    omega
  have hub0 : updCount st b = updCount st0 b := by
    apply h2 b
    have e1 := hoccst b
    have e2 := hfrb b
    omega
  have haddb : added.count b = 0 ∧ pendTotal st1.store b = 0 := by
    have e1 := hptAdd b
    have e2 := hpts b
    omega
  refine ⟨?_, ?_, ?_, ?_, ?_, hE1⟩
  · intro x
    by_cases hxb : x = b
    · subst hxb
      have e1 := hus x
      have e2 := h1 x
      omega
    · have e1 := hune x hxb
      have e2 := hus x
      have e3 := h1 x
      omega
  · intro x hx
    rw [hocc1 x] at hx
    by_cases hxb : x = b
    · subst hxb
      have e1 := hfr1 x
      exfalso
      omega
    · have e1 := hfr1 x
      have e2 := hptAdd x
      have e3 := hpts x
      have e4 := hfrb x
      have e5 : ([b] : List Nat).count x = 0 := by simp [hxb]
      have e6 := hoccst x
      have e8 := hune x hxb
      have e9 := hus x
      have hx2 : 1 ≤ occCount st x := by omega
      have e7 := h2 x hx2
      omega
  · intro x
    rw [hocc1 x]
    by_cases hxb : x = b
    · subst hxb
      have e1 := hfr1 x
      omega
    · have e1 := hfr1 x
      have e2 := hptAdd x
      have e3 := hpts x
      have e4 := hfrb x
      have e5 : ([b] : List Nat).count x = 0 := by simp [hxb]
      have e6 := hoccst x
      have e7 := h3 x
      omega
  · intro x
    by_cases hxb : x = b
    · subst hxb
      have e1 := h4 x
      have e2 := hfrb x
      have e3 := hfr1 x
      have e4 := hus x
      omega
    · have e1 := h4 x
      have e2 := hfrb x
      have e3 := hfr1 x
      have e4 := hus x
      have e5 : ([b] : List Nat).count x = 0 := by simp [hxb]
      have e6 := hune x hxb
      omega
  · rw [hqAdd]
    exact List.mem_append_right _ hsent

theorem TickInv_append_back (st0 st1 : Sched) (y : Option Nat)
    (hinv : TickInv st0 st1) :
    TickInv st0 { st1 with m_Behaviors := st1.m_Behaviors ++ [y] } := by
  obtain ⟨h1, h2, h3, h4, h5, h6⟩ := hinv
  have hfr := frontIds_back st1 y h5
  have hocc : ∀ x, occCount { st1 with m_Behaviors := st1.m_Behaviors ++ [y] } x
      = occCount st1 x := by
    intro x
    unfold occCount
    rw [hfr]
  refine ⟨h1, ?_, ?_, ?_, ?_, h6⟩
  · intro x hx
    rw [hocc x] at hx
    exact h2 x hx
  · intro x
    rw [hocc x]
    exact h3 x
  · intro x
    have e1 : (frontIds { st1 with m_Behaviors := st1.m_Behaviors ++ [y] }).count x
        = (frontIds st1).count x := by rw [hfr]
    have e2 := h4 x
    have e3 : updCount { st1 with m_Behaviors := st1.m_Behaviors ++ [y] } x
        = updCount st1 x := rfl
    omega
  · exact List.mem_append_left _ h5

theorem TickInv_cascade (st0 st1 stX : Sched) (added2 : List Nat)
    (hq : stX.m_Behaviors = added2.map some ++ st1.m_Behaviors)
    (hpt : ∀ x, added2.count x + pendTotal stX.store x ≤ pendTotal st1.store x)
    (hcnt : ∀ x, updCount stX x = updCount st1 x)
    (hEX : EdgesOkP stX)
    (hinv : TickInv st0 st1) : TickInv st0 stX := by
  obtain ⟨h1, h2, h3, h4, h5, h6⟩ := hinv
  have hfr : ∀ x, (frontIds stX).count x
      = added2.count x + (frontIds st1).count x :=
    fun x => frontIds_prepend stX st1 added2 hq x
  have hocc1 : ∀ x, occCount st1 x
      = (frontIds st1).count x + pendTotal st1.store x := fun x => rfl
  have hoccX : ∀ x, occCount stX x
      = (frontIds stX).count x + pendTotal stX.store x := fun x => rfl
  refine ⟨?_, ?_, ?_, ?_, ?_, hEX⟩
  · intro x
    have e1 := hcnt x
    have e2 := h1 x
    omega
  · intro x hx
    have e0 := hoccX x
    have e1 := hfr x
    have e2 := hpt x
    have e3 := hocc1 x
    have e4 := hcnt x
    have hx2 : 1 ≤ occCount st1 x := by omega
    have e5 := h2 x hx2
    omega
  · intro x
    have e0 := hoccX x
    have e1 := hfr x
    have e2 := hpt x
    have e3 := hocc1 x
    have e4 := h3 x
    omega
  · intro x
    have e1 := hfr x
    have e2 := hcnt x
    have e3 := h4 x
    omega
  · rw [hq]
    exact List.mem_append_right _ h5

theorem step_wf (fuel : Nat) (st0 st st2 : Sched) (cont : Bool)
    (h : step fuel st = some (st2, cont))
    (hinv : TickInv st0 st) :
    (cont = true → TickInv st0 st2)
    ∧ (cont = false → st2.store = st.store
        ∧ st.m_Behaviors = none :: st2.m_Behaviors) := by
  unfold step at h
  cases hq : st.m_Behaviors with
  | nil => rw [hq] at h; simp at h
  | cons q0 rest =>
    simp only [hq] at h
    cases q0 with
    | none =>
      simp only [Option.some.injEq, Prod.mk.injEq] at h
      obtain ⟨hst2, hcont⟩ := h
      subst hst2
      subst hcont
      refine ⟨fun hc => absurd hc (by decide), fun _ => ⟨rfl, rfl⟩⟩
    | some b =>
      cases htb : tickBehavior { st with m_Behaviors := rest } b with
      | none => simp only [htb] at h; simp at h
      | some st1 =>
        simp only [htb] at h
        cases hfd : findB st1.store b with
        | none => simp only [hfd] at h; simp at h
        | some dEnd =>
          simp only [hfd] at h
          have hmid : TickInv st0 st1 := tick_step_mid st0 st b rest st1 hq htb hinv
          by_cases hrun : dEnd.m_eStatus = Status.running
          · rw [if_neg (by simp [hrun])] at h
            simp only [Option.some.injEq, Prod.mk.injEq] at h
            obtain ⟨hst2, hcont⟩ := h
            subst hst2
            subst hcont
            refine ⟨fun _ => TickInv_append_back st0 st1 (some b) hmid,
              fun hc => absurd hc (by decide)⟩
          · rw [if_pos hrun] at h
            cases hobsd : dEnd.m_Observer with
            | none =>
              simp only [hobsd] at h
              simp only [Option.some.injEq, Prod.mk.injEq] at h
              obtain ⟨hst2, hcont⟩ := h
              subst hst2
              subst hcont
              refine ⟨fun _ => TickInv_append_back st0 st1 (some b) hmid,
                fun hc => absurd hc (by decide)⟩
            | some p2 =>
              simp only [hobsd] at h
              cases hoc : onChildComplete fuel
                  { st1 with log := st1.log ++ [(b, dEnd.m_eStatus)] } p2 with
              | none => rw [hoc] at h; simp at h
              | some stX =>
                rw [hoc] at h
                simp only [Option.map_some', Option.some.injEq,
                  Prod.mk.injEq] at h
                obtain ⟨hst2, hcont⟩ := h
                subst hst2
                subst hcont
                have hedge : ∃ c0 dc0, findB ({ st1 with
                      log := st1.log ++ [(b, dEnd.m_eStatus)] } : Sched).store c0
                    = some dc0 ∧ dc0.m_Observer = some p2 := ⟨b, dEnd, hfd, hobsd⟩
                obtain ⟨⟨added2, hqX, hptX⟩, hEX⟩ :=
                  (cascade_wf fuel).2 _ p2 stX hoc hedge hmid.2.2.2.2.2
                have hcntX : ∀ x, updCount stX x = updCount st1 x := by
                  intro x
                  have hcc := ((cascade_counts fuel).2 _ p2 stX hoc).1 x
                  exact (counts_eq_updCount _ _ x hcc).1
                refine ⟨fun _ => TickInv_cascade st0 st1 stX added2 hqX hptX
                  hcntX hEX hmid, fun hc => absurd hc (by decide)⟩

end bt4

namespace bt4

theorem runSteps_wf : ∀ (fuel : Nat) (st0 st stF : Sched),
    runSteps fuel st = some stF → TickInv st0 st →
    (∀ b, updCount stF b ≤ updCount st0 b + 1)
    ∧ (∀ b, updCount st0 b + (frontIds st0).count b ≤ updCount stF b) := by
  intro fuel
  induction fuel with
  | zero =>
    intro st0 st stF h hinv
    simp [runSteps] at h
  | succ f ih =>
    intro st0 st stF h hinv
    simp only [runSteps] at h
    cases hs : step f st with
    | none => rw [hs] at h; simp at h
    | some pr =>
      obtain ⟨st1, cont⟩ := pr
      cases cont with
      | true =>
        simp only [hs] at h
        have hnext := (step_wf f st0 st st1 true hs hinv).1 rfl
        exact ih st0 st1 stF h hnext
      | false =>
        simp only [hs] at h
        have hfin := (step_wf f st0 st st1 false hs hinv).2 rfl
        obtain ⟨hstore, hqfin⟩ := hfin
        have he := Option.some.inj h
        subst he
        have hu1 : ∀ x, updCount st1 x = updCount st x := by
          intro x
          unfold updCount
          rw [hstore]
        have hfr0 : frontIds st = [] := by
          unfold frontIds
          rw [hqfin]
          exact frontL_none _
        constructor
        · intro b
          have e1 := hinv.1 b
          have e2 := hu1 b
          omega
        · intro b
          have e1 := hinv.2.2.2.1 b
          have e2 : (frontIds st).count b = 0 := by rw [hfr0]; rfl
          have e3 := hu1 b
          omega

/-- C4: within one BehaviorTree::tick() frame on the event-driven scheduler,
any given behavior is ticked at most once.  For every well-formed scheduler
state — each behavior occurs at most once among the queue entries plus the
child slots a queued sequence may still start this frame, and every observer
edge targets an initialized non-mock behavior — a completed tick() call
raises every update count by at most 1, and raises the update count of each
behavior queued at frame start by exactly 1, regardless of the queue size or
of observer cascades fired during the frame. -/
theorem C4_tick_at_most_once (fuel : Nat) (st stF : Sched)
    (hocc : ∀ b, occCount st b ≤ 1)
    (hE : obsEdgesOkB st = true)
    (h : tick fuel st = some stF) :
    (∀ b, updCount stF b ≤ updCount st b + 1)
    ∧ ∀ b, 1 ≤ (frontIds st).count b → updCount stF b = updCount st b + 1 := by
  unfold tick at h
  have hfr0 : frontIds ({ st with m_Behaviors := st.m_Behaviors ++ [none] } : Sched)
      = frontIds st := frontIds_sentinel st
  have hbase : TickInv { st with m_Behaviors := st.m_Behaviors ++ [none] }
      { st with m_Behaviors := st.m_Behaviors ++ [none] } := by
    refine ⟨?_, ?_, ?_, ?_, ?_, ?_⟩
    · intro b
      omega
    · intro b hx
      rfl
    · intro b
      have e0 : occCount { st with m_Behaviors := st.m_Behaviors ++ [none] } b
          = (frontIds { st with m_Behaviors := st.m_Behaviors ++ [none] }).count b
            + pendTotal st.store b := rfl
      have e2 : (frontIds { st with m_Behaviors := st.m_Behaviors ++ [none] }).count b
          = (frontIds st).count b := by rw [hfr0]
      have e3 := hocc b
      have e4 : occCount st b = (frontIds st).count b + pendTotal st.store b := rfl
      omega
    · intro b
      omega
    · exact List.mem_append_right _ (by simp)
    · exact EdgesOkP_of_B st hE
  obtain ⟨hA, hB⟩ := runSteps_wf fuel
    { st with m_Behaviors := st.m_Behaviors ++ [none] }
    { st with m_Behaviors := st.m_Behaviors ++ [none] } stF h hbase
  constructor
  · intro b
    have e1 := hA b
    have e2 : updCount ({ st with m_Behaviors := st.m_Behaviors ++ [none] } : Sched) b
        = updCount st b := rfl
    omega
  · intro b hb
    have e1 := hA b
    have e2 := hB b
    have e3 : updCount ({ st with m_Behaviors := st.m_Behaviors ++ [none] } : Sched) b
        = updCount st b := rfl
    have e4 : (frontIds { st with m_Behaviors := st.m_Behaviors ++ [none] }).count b
        = (frontIds st).count b := by rw [hfr0]
    omega

/-- Witness for C4: the claim scenario — behavior 0, an observer-free running
mock, queued in front of 3 other queued running behaviors; one tick() call
increments behavior 0's update count by exactly 1. -/
theorem C4_tick_at_most_once_witness :
    ∃ stF, tick 6 schedC4 = some stF
      ∧ updCount stF 0 = updCount schedC4 0 + 1 := by
  cases htk : tick 6 schedC4 with
  | none => exact absurd htk (by decide)
  | some stF =>
    refine ⟨stF, rfl, ?_⟩
    refine (C4_tick_at_most_once 6 schedC4 stF ?_ (by decide) htk).2 0 (by decide)
    intro b
    have h1 : (frontIds schedC4).count b ≤ 1 :=
      List.nodup_iff_count_le_one.mp (by decide) b
    have h2 : pendTotal schedC4.store b = 0 := rfl
    have h3 : occCount schedC4 b
        = (frontIds schedC4).count b + pendTotal schedC4.store b := rfl
    omega

end bt4

namespace bt4

theorem putB_found_same (l : List (Nat × BData)) (i : Nat) (d : BData)
    (h : findB l i = some d) : putB l i d = l := by
  induction l with
  | nil => rfl
  | cons pr rest ih =>
    obtain ⟨k, dk⟩ := pr
    by_cases hik : i = k
    · simp only [findB, if_pos hik] at h
      cases h
      simp [putB, if_pos hik]
    · simp only [findB, if_neg hik] at h
      simp [putB, if_neg hik, ih h]

theorem fmid_cons_some (b : Nat) (q : List (Option Nat)) :
    ((some b :: q).filterMap (fun x => x)) = b :: q.filterMap (fun x => x) := by
  simp

theorem fmid_cons_none (q : List (Option Nat)) :
    ((none :: q).filterMap (fun x => x)) = q.filterMap (fun x => x) := by
  simp

theorem fmid_map_some_append (added : List Nat) (q : List (Option Nat)) :
    ((added.map some ++ q).filterMap (fun x => x))
      = added ++ q.filterMap (fun x => x) := by
  induction added with
  | nil => simp
  | cons a t ih => simpa using ih

theorem fmid_append_some (q : List (Option Nat)) (b : Nat) :
    ((q ++ [some b]).filterMap (fun x => x))
      = q.filterMap (fun x => x) ++ [b] := by
  simp

theorem fmid_append_none (q : List (Option Nat)) :
    ((q ++ [none]).filterMap (fun x => x)) = q.filterMap (fun x => x) := by
  simp

theorem count_cons_split (a x : Nat) (L : List Nat) :
    (a :: L).count x = ([a] : List Nat).count x + L.count x := by
  by_cases hxa : x = a <;> simp [List.count_cons, hxa] <;> omega

theorem start_InvQ (st : Sched) (b : Nat) (st2 : Sched)
    (h : start st b none = some st2) (hb : QOcc st b = 0)
    (hinv : InvQ st) : InvQ st2 := by
  obtain ⟨h1, hE⟩ := hinv
  unfold start at h
  cases hf : findB st.store b with
  | none => rw [hf] at h; simp at h
  | some d =>
    simp only [hf] at h
    have he := Option.some.inj h
    subst he
    have hput : putB st.store b d = st.store := putB_found_same _ _ _ hf
    constructor
    · intro x
      have e1 : QOcc { st with store := putB st.store b d, m_Behaviors := some b :: st.m_Behaviors } x
          = (b :: queueIds st).count x + pendTotal st.store x := by
        unfold QOcc queueIds
        rw [hput, fmid_cons_some]
      have e2 := count_cons_split b x (queueIds st)
      have e3 : QOcc st x = (queueIds st).count x + pendTotal st.store x := rfl
      by_cases hxb : x = b
      · subst hxb
        have e4 : QOcc st x = 0 := hb
        have e5 : ([x] : List Nat).count x = 1 := by simp
        omega
      · have e5 : ([b] : List Nat).count x = 0 := by simp [hxb]
        have e6 := h1 x
        omega
    · intro c dc hfc p hp dp hfp hm
      have hss : ({ st with store := putB st.store b d, m_Behaviors := some b :: st.m_Behaviors } : Sched).store = st.store := hput
      rw [hss] at hfc hfp
      exact hE c dc hfc p hp dp hfp hm

theorem stop_InvQ (fuel : Nat) (st : Sched) (b : Nat) (r : Status) (st2 : Sched)
    (h : stopB fuel st b r = some st2) (hr : r ≠ Status.invalid)
    (hinv : InvQ st) : InvQ st2 := by
  obtain ⟨h1, hE⟩ := hinv
  obtain ⟨⟨added, hq2, hpt2⟩, hE2⟩ := (cascade_wf fuel).1 st b r st2 h hr hE
  refine ⟨?_, hE2⟩
  intro x
  have e1 : (queueIds st2).count x = added.count x + (queueIds st).count x := by
    unfold queueIds
    rw [hq2, fmid_map_some_append]
    simp [List.count_append]
  have e2 := hpt2 x
  have e3 : QOcc st2 x = (queueIds st2).count x + pendTotal st2.store x := rfl
  have e4 : QOcc st x = (queueIds st).count x + pendTotal st.store x := rfl
  have e5 := h1 x
  omega

theorem step_InvQ (fuel : Nat) (st st2 : Sched) (cont : Bool)
    (h : step fuel st = some (st2, cont)) (hinv : InvQ st) : InvQ st2 := by
  obtain ⟨h1, hE⟩ := hinv
  unfold step at h
  cases hq : st.m_Behaviors with
  | nil => rw [hq] at h; simp at h
  | cons q0 rest =>
    simp only [hq] at h
    cases q0 with
    | none =>
      simp only [Option.some.injEq, Prod.mk.injEq] at h
      obtain ⟨hst2, hcont⟩ := h
      subst hst2
      constructor
      · intro x
        have e1 : QOcc ({ st with m_Behaviors := rest } : Sched) x
            = (queueIds ({ st with m_Behaviors := rest } : Sched)).count x
              + pendTotal st.store x := rfl
        have e2 : queueIds st = queueIds ({ st with m_Behaviors := rest } : Sched) := by
          unfold queueIds
          rw [hq]
          exact fmid_cons_none _
        have e3 : QOcc st x = (queueIds st).count x + pendTotal st.store x := rfl
        have e4 := h1 x
        rw [e2] at e3
        omega
      · exact hE
    | some b =>
      cases htb : tickBehavior { st with m_Behaviors := rest } b with
      | none => simp only [htb] at h; simp at h
      | some st1 =>
        simp only [htb] at h
        cases hfd : findB st1.store b with
        | none => simp only [hfd] at h; simp at h
        | some dEnd =>
          simp only [hfd] at h
          obtain ⟨⟨added, hqAdd, hptAdd⟩, _, _, hE1⟩ :=
            tickBehavior_wf { st with m_Behaviors := rest } b st1 htb hE
          have hqS : ∀ x, (queueIds st).count x
              = ([b] : List Nat).count x
                + (queueIds ({ st with m_Behaviors := rest } : Sched)).count x := by
            intro x
            have e : queueIds st = b :: queueIds ({ st with m_Behaviors := rest } : Sched) := by
              unfold queueIds
              rw [hq]
              exact fmid_cons_some _ _
            rw [e]
            exact count_cons_split b x _
          have hq1 : ∀ x, (queueIds st1).count x
              = added.count x
                + (queueIds ({ st with m_Behaviors := rest } : Sched)).count x := by
            intro x
            unfold queueIds
            rw [hqAdd, fmid_map_some_append]
            simp [List.count_append]
          have hptA : ∀ x, added.count x + pendTotal st1.store x
              = pendTotal st.store x := hptAdd
          by_cases hrun : dEnd.m_eStatus = Status.running
          · rw [if_neg (by simp [hrun])] at h
            simp only [Option.some.injEq, Prod.mk.injEq] at h
            obtain ⟨hst2, hcont⟩ := h
            subst hst2
            constructor
            · intro x
              have e1 : QOcc { st1 with m_Behaviors := st1.m_Behaviors ++ [some b] } x
                  = (queueIds st1).count x + ([b] : List Nat).count x
                    + pendTotal st1.store x := by
                unfold QOcc queueIds
                rw [fmid_append_some]
                simp [List.count_append]
              have e2 := hqS x
              have e3 := hq1 x
              have e4 := hptA x
              have e5 := h1 x
              have e6 : QOcc st x = (queueIds st).count x + pendTotal st.store x := rfl
              omega
            · exact hE1
          · rw [if_pos hrun] at h
            cases hobsd : dEnd.m_Observer with
            | none =>
              simp only [hobsd] at h
              simp only [Option.some.injEq, Prod.mk.injEq] at h
              obtain ⟨hst2, hcont⟩ := h
              subst hst2
              constructor
              · intro x
                have e1 : QOcc { st1 with m_Behaviors := st1.m_Behaviors ++ [some b] } x
                    = (queueIds st1).count x + ([b] : List Nat).count x
                      + pendTotal st1.store x := by
                  unfold QOcc queueIds
                  rw [fmid_append_some]
                  simp [List.count_append]
                have e2 := hqS x
                have e3 := hq1 x
                have e4 := hptA x
                have e5 := h1 x
                have e6 : QOcc st x = (queueIds st).count x + pendTotal st.store x := rfl
                omega
              · exact hE1
            | some p2 =>
              simp only [hobsd] at h
              cases hoc : onChildComplete fuel
                  { st1 with log := st1.log ++ [(b, dEnd.m_eStatus)] } p2 with
              | none => rw [hoc] at h; simp at h
              | some stX =>
                rw [hoc] at h
                simp only [Option.map_some', Option.some.injEq,
                  Prod.mk.injEq] at h
                obtain ⟨hst2, hcont⟩ := h
                subst hst2
                have hedge : ∃ c0 dc0, findB ({ st1 with
                      log := st1.log ++ [(b, dEnd.m_eStatus)] } : Sched).store c0
                    = some dc0 ∧ dc0.m_Observer = some p2 := ⟨b, dEnd, hfd, hobsd⟩
                obtain ⟨⟨added2, hqX, hptX⟩, hEX⟩ :=
                  (cascade_wf fuel).2 _ p2 stX hoc hedge hE1
                constructor
                · intro x
                  have e1 : (queueIds stX).count x
                      = added2.count x + (queueIds st1).count x := by
                    unfold queueIds
                    rw [hqX, fmid_map_some_append]
                    simp [List.count_append]
                  have e2 : added2.count x + pendTotal stX.store x
                      ≤ pendTotal st1.store x := hptX x
                  have e3 := hqS x
                  have e4 := hq1 x
                  have e5 := hptA x
                  have e6 := h1 x
                  have e7 : QOcc st x = (queueIds st).count x + pendTotal st.store x := rfl
                  have e8 : QOcc stX x = (queueIds stX).count x + pendTotal stX.store x := rfl
                  omega
                · exact hEX

theorem runSteps_InvQ : ∀ (fuel : Nat) (st stF : Sched),
    runSteps fuel st = some stF → InvQ st → InvQ stF := by
  intro fuel
  induction fuel with
  | zero =>
    intro st stF h hinv
    simp [runSteps] at h
  | succ f ih =>
    intro st stF h hinv
    simp only [runSteps] at h
    cases hs : step f st with
    | none => rw [hs] at h; simp at h
    | some pr =>
      obtain ⟨st1, cont⟩ := pr
      cases cont with
      | true =>
        simp only [hs] at h
        exact ih st1 stF h (step_InvQ f st st1 true hs hinv)
      | false =>
        simp only [hs] at h
        have he := Option.some.inj h
        subst he
        exact step_InvQ f st st1 false hs hinv

theorem tick_InvQ (fuel : Nat) (st stF : Sched)
    (h : tick fuel st = some stF) (hinv : InvQ st) : InvQ stF := by
  unfold tick at h
  refine runSteps_InvQ fuel _ stF h ⟨?_, hinv.2⟩
  intro x
  have e1 : QOcc ({ st with m_Behaviors := st.m_Behaviors ++ [none] } : Sched) x
      = (queueIds st).count x + pendTotal st.store x := by
    unfold QOcc queueIds
    rw [fmid_append_none]
  have e2 : QOcc st x = (queueIds st).count x + pendTotal st.store x := rfl
  have e3 := hinv.1 x
  omega

theorem ReachW_InvQ (st : Sched) (h : ReachW st) : InvQ st := by
  induction h with
  | base st hq hp hB =>
    refine ⟨?_, EdgesOkP_of_B st hB⟩
    intro x
    have e1 : queueIds st = [] := by
      unfold queueIds
      rw [hq]
      rfl
    have e2 : QOcc st x = (queueIds st).count x + pendTotal st.store x := rfl
    have e3 := hp x
    rw [e1] at e2
    simp at e2
    omega
  | start_op st b st2 hr hb hs ih => exact start_InvQ st b st2 hs hb ih
  | stop_op st fuel b r st2 hr hrinv hs ih => exact stop_InvQ fuel st b r st2 hs hrinv ih
  | step_op st fuel st2 cont hr hs ih => exact step_InvQ fuel st st2 cont hs ih
  | tick_op st fuel st2 hr hs ih => exact tick_InvQ fuel st st2 hs ih

/-- C6 (amended): over any store of mocks and sequences with well-formed
observer edges whose pending-child slots mention each behavior at most once,
at every state reachable from an empty queue by interleaving start(), stop(),
step() and tick() — with start() invoked as at the source's call sites (the
public calls pass no observer) on a behavior with no queue occupancy (neither
queued nor a still-startable child of a stored sequence), and stop() passing
a non-Invalid result — each behavior appears at most once in the scheduler's
queue.  Both guards are forced: start() unconditionally push_fronts, so a
repeated start duplicates the entry; a queue-membership-only guard is still
insufficient because the sequence cascades push_front the current child
without any check, so ticking a freshly started sequence whose child is
already queued duplicates the child; and stop(seq, Invalid) re-arms
onInitialize, which would duplicate the children once more. -/
theorem C6_queue_nodup (st : Sched) (h : ReachW st) : (queueIds st).Nodup := by
  have hinv := ReachW_InvQ st h
  refine List.nodup_iff_count_le_one.mpr ?_
  intro x
  have e1 := hinv.1 x
  have e2 : QOcc st x = (queueIds st).count x + pendTotal st.store x := rfl
  omega

/-- Counterexample to C6 as stated, exhibiting both defects.  First, an
unrestricted interleaving: calling start() twice on the same behavior puts it
into the queue twice.  Second, guarding only on queue membership is not
enough: over a store holding a mock (id 0) and a sequence (id 1) with the
mock as its only child, start 0 (not queued), then start 1 (not queued), then
one step(): the step pops the sequence, whose onInitialize push_fronts child
0 with no membership check while 0 is still queued — the queue becomes
[0, 0, 1]. -/
theorem C6_counterexample :
    (((start schedC6 0 none).bind fun st => start st 0 none)
        = some { store := [(0, { kind := BKind.mock Status.running })],
                 m_Behaviors := [some 0, some 0] }
      ∧ ¬ (queueIds { store := [(0, { kind := BKind.mock Status.running })],
                      m_Behaviors := [some 0, some 0] }).Nodup)
    ∧ ((0 : Nat) ∉ queueIds schedC6b
      ∧ (start schedC6b 0 none).map queueIds = some [0]
      ∧ (1 : Nat) ∉ ([0] : List Nat)
      ∧ (((start schedC6b 0 none).bind fun st => start st 1 none).bind
            fun st => step 5 st).map (fun pr => queueIds pr.1) = some [0, 0, 1]
      ∧ ¬ ([0, 0, 1] : List Nat).Nodup) := by
  exact ⟨⟨by decide, by decide⟩,
    by decide, by decide, by decide, by decide, by decide⟩

/-- Witness for C6: a reachable state driven through an actual sequence —
start the sequence over the two-behavior store, then run a whole tick()
(which makes the sequence start and tick its child); the queue stays
duplicate-free. -/
theorem C6_queue_nodup_witness :
    ∃ st3, tick 4 { schedC6b with m_Behaviors := [some 1] } = some st3
      ∧ (queueIds st3).Nodup := by
  have hbase : ReachW schedC6b := by
    refine ReachW.base schedC6b rfl ?_ (by decide)
    intro b
    have e1 : pendTotal schedC6b.store b = 0 + (([0] : List Nat).count b + 0) := rfl
    have e2 : ([0] : List Nat).count b ≤ 1 := by
      by_cases hb0 : b = 0
      · subst hb0
        decide
      · have e3 : ([0] : List Nat).count b = 0 := by
          simp [List.count_singleton', hb0]
        omega
    omega
  have hstart : ReachW { schedC6b with m_Behaviors := [some 1] } :=
    ReachW.start_op schedC6b 1 _ hbase (by decide) (by decide)
  cases htk : tick 4 { schedC6b with m_Behaviors := [some 1] } with
  | none => exact absurd htk (by decide)
  | some st3 =>
    exact ⟨st3, rfl, C6_queue_nodup st3 (ReachW.tick_op _ 4 st3 hstart htk)⟩

end bt4
